import Mathlib

/-!
Verification of the two-class priority queueing simulator in `main.py`
(Fastpass-Queueing-Simulation).

The simulation engine (`simulate` in the source) is embedded as a state
machine.  The state mirrors the Python local variables of `simulate`:
the clock `time`, the pair `num_in_queue` (index 0 = fastpass/Priority,
index 1 = regular), the three pairs of timestamp logs, and the future
event list `fel`.  The `heapq` future-event list is a multiset of events;
`heappop` returns a minimal element under Python's tuple comparison of
`((cls, time), kind)`, which `popMin` implements, and `heappush` adds an
element, which list append implements.

Randomness: the source draws from `random()` inside `rand_exp` (the
exponential variates) and inside `is_fp` (the class coin).  The spec
requires the random variate source to be substitutable with a
deterministic one, so a run is parametrised by the two outcome streams:
`expSeq n` is the value returned by the n-th call to `rand_exp` (in call
order; `rand_exp` returns `-log(random())/rate`, a strictly positive real
for `random() ∈ (0,1)`), and `uSeq n` is the `random()` value consumed by
the n-th call of `is_fp`.  Times are modelled as rationals.

The source's hard-coded arrival cap is 50000; the loop-condition cap is
kept as a parameter `cap` so that theorems quantify over it (they
instantiate in particular at 50000) and concrete witness runs stay small.
The Python `while` loop is modelled by iterating `stepIf`, which applies
one loop iteration when the loop condition holds and is the identity
afterwards; `iterSim cfg cap k` is the state after `k` iterations.

Statistics (`stats`) model the tail of `simulate` after the loop; `none`
models an uncaught Python exception there (the `ZeroDivisionError` of
`sum(l)/len(l)` on an empty list, or an `IndexError` of the list
comprehension).
-/

namespace FastpassSim

/-- Event kind, the second component of the Python event tuple.  The
strings `'arrival' < 'departure'` compare in this order. -/
inductive EKind where
  | arrival : EKind
  | departure : EKind
deriving DecidableEq, Repr

/-- Numeric rank of the kind strings under Python string comparison
(`'arrival' < 'departure'`). -/
def EKind.toNat : EKind → Nat
  | EKind.arrival => 0
  | EKind.departure => 1

/-- An event of the future event list: the Python tuple
`((cls, t), kind)` where `cls` is the class int produced by `is_fp`
(0 = fastpass/Priority, 1 = regular) and `t` is the scheduled time.
The ordering key `(cls, t)` is stored in the event at creation. -/
structure Event where
  cls : Nat
  t : ℚ
  kind : EKind
deriving DecidableEq, Repr

/-- Python tuple comparison on events: `((cls, t), kind)` ordered
lexicographically, class first, then scheduled time, then kind. -/
def Event.leB (a b : Event) : Bool :=
  if a.cls < b.cls then true
  else if b.cls < a.cls then false
  else if a.t < b.t then true
  else if b.t < a.t then false
  else decide (a.kind.toNat ≤ b.kind.toNat)

/-- Extraction of a minimal element, modelling `heappop`: returns a
minimal event under `Event.leB` together with the remaining events.
`heapq` maintains the future event list as a multiset and `heappop`
returns its minimum under the element order. -/
def popMin : List Event → Option (Event × List Event)
  | [] => none
  | e :: es =>
    match popMin es with
    | none => some (e, [])
    | some (m, rest) => if Event.leB e m then some (e, es) else some (m, e :: rest)

/-- Configuration of one run: the two engine arguments together with the
outcome streams of the random variate source (see the file comment).
`arrival_rate` enters the computation only through the `rand_exp`
outcomes recorded in `expSeq`, exactly as in the source, where it is
used solely as the rate argument of `rand_exp`. -/
structure Cfg where
  arrival_rate : ℚ
  fp_frac : ℚ
  expSeq : ℕ → ℚ
  uSeq : ℕ → ℚ

/-- Class assignment of `is_fp` in the source: `0` (fastpass) when the
uniform draw `u` is below `fp_frac`, else `1` (regular). -/
def is_fp (fp_frac u : ℚ) : Nat :=
  if u < fp_frac then 0 else 1

/-- Outcome of the n-th `is_fp` call of a run. -/
def classDraw (cfg : Cfg) (n : ℕ) : Nat :=
  is_fp cfg.fp_frac (cfg.uSeq n)

/-- State of the event loop of `simulate`.  Pairs are indexed as in the
source lists: `.1` is index 0 (fastpass), `.2` is index 1 (regular).
`eIdx` and `uIdx` count the `rand_exp` and `is_fp` calls made so far. -/
structure SimState where
  time : ℚ
  num_in_queue : ℤ × ℤ
  arrival_times : List ℚ × List ℚ
  enter_service_times : List ℚ × List ℚ
  departure_times : List ℚ × List ℚ
  fel : List Event
  eIdx : ℕ
  uIdx : ℕ
deriving DecidableEq

/-- Branch of the loop body for `event_type == 'arrival' and
event_priority[0] == 0` (fastpass arrival), lines 85–111 of the source:
log the arrival, increment the fastpass counter, schedule the next
arrival from fresh draws, and if the fastpass counter became 1 enter
service and schedule the departure. -/
def arrFpBranch (cfg : Cfg) (s : SimState) (t : ℚ) (fel1 : List Event) : SimState :=
  let arr' := (s.arrival_times.1 ++ [t], s.arrival_times.2)
  let q' := (s.num_in_queue.1 + 1, s.num_in_queue.2)
  let nextCls := classDraw cfg s.uIdx
  let fel2 := fel1 ++ [⟨nextCls, t + cfg.expSeq s.eIdx, EKind.arrival⟩]
  if q'.1 = 1 then
    { time := t, num_in_queue := q', arrival_times := arr',
      enter_service_times := (s.enter_service_times.1 ++ [t], s.enter_service_times.2),
      departure_times := s.departure_times,
      fel := fel2 ++ [⟨0, t + cfg.expSeq (s.eIdx + 1), EKind.departure⟩],
      eIdx := s.eIdx + 2, uIdx := s.uIdx + 1 }
  else
    { time := t, num_in_queue := q', arrival_times := arr',
      enter_service_times := s.enter_service_times,
      departure_times := s.departure_times,
      fel := fel2, eIdx := s.eIdx + 1, uIdx := s.uIdx + 1 }

/-- Branch for `event_type == 'departure' and event_priority[0] == 0`
(fastpass departure), lines 117–136: log the departure, decrement the
fastpass counter, and if fastpass customers remain put the next one into
service and schedule its departure. -/
def depFpBranch (cfg : Cfg) (s : SimState) (t : ℚ) (fel1 : List Event) : SimState :=
  let dep' := (s.departure_times.1 ++ [t], s.departure_times.2)
  let q' := (s.num_in_queue.1 - 1, s.num_in_queue.2)
  if 0 < q'.1 then
    { time := t, num_in_queue := q', arrival_times := s.arrival_times,
      enter_service_times := (s.enter_service_times.1 ++ [t], s.enter_service_times.2),
      departure_times := dep',
      fel := fel1 ++ [⟨0, t + cfg.expSeq s.eIdx, EKind.departure⟩],
      eIdx := s.eIdx + 1, uIdx := s.uIdx }
  else
    { time := t, num_in_queue := q', arrival_times := s.arrival_times,
      enter_service_times := s.enter_service_times,
      departure_times := dep',
      fel := fel1, eIdx := s.eIdx, uIdx := s.uIdx }

/-- Branch for `event_type == 'arrival' and event_priority[0] == 1`
(regular arrival), lines 142–169: log the arrival, increment the regular
counter, schedule the next arrival, and enter service only when the
regular counter became 1 AND the fastpass counter is 0. -/
def arrRegBranch (cfg : Cfg) (s : SimState) (t : ℚ) (fel1 : List Event) : SimState :=
  let arr' := (s.arrival_times.1, s.arrival_times.2 ++ [t])
  let q' := (s.num_in_queue.1, s.num_in_queue.2 + 1)
  let nextCls := classDraw cfg s.uIdx
  let fel2 := fel1 ++ [⟨nextCls, t + cfg.expSeq s.eIdx, EKind.arrival⟩]
  if q'.2 = 1 ∧ q'.1 = 0 then
    { time := t, num_in_queue := q', arrival_times := arr',
      enter_service_times := (s.enter_service_times.1, s.enter_service_times.2 ++ [t]),
      departure_times := s.departure_times,
      fel := fel2 ++ [⟨1, t + cfg.expSeq (s.eIdx + 1), EKind.departure⟩],
      eIdx := s.eIdx + 2, uIdx := s.uIdx + 1 }
  else
    { time := t, num_in_queue := q', arrival_times := arr',
      enter_service_times := s.enter_service_times,
      departure_times := s.departure_times,
      fel := fel2, eIdx := s.eIdx + 1, uIdx := s.uIdx + 1 }

/-- Branch for `event_type == 'departure' and event_priority[0] == 1`
(regular departure), lines 175–194: log the departure, decrement the
regular counter, and if regular customers remain put the next one into
service (without re-checking the fastpass side) and schedule its
departure. -/
def depRegBranch (cfg : Cfg) (s : SimState) (t : ℚ) (fel1 : List Event) : SimState :=
  let dep' := (s.departure_times.1, s.departure_times.2 ++ [t])
  let q' := (s.num_in_queue.1, s.num_in_queue.2 - 1)
  if 0 < q'.2 then
    { time := t, num_in_queue := q', arrival_times := s.arrival_times,
      enter_service_times := (s.enter_service_times.1, s.enter_service_times.2 ++ [t]),
      departure_times := dep',
      fel := fel1 ++ [⟨1, t + cfg.expSeq s.eIdx, EKind.departure⟩],
      eIdx := s.eIdx + 1, uIdx := s.uIdx }
  else
    { time := t, num_in_queue := q', arrival_times := s.arrival_times,
      enter_service_times := s.enter_service_times,
      departure_times := dep',
      fel := fel1, eIdx := s.eIdx, uIdx := s.uIdx }

/-- Dispatch of the popped event on `(kind, cls)`, the `if`/`elif` chain
of lines 85–194.  If no branch matches (a class outside {0,1}, which
never occurs in reachable states) the iteration has still popped the
event and advanced the clock, as in the source. -/
def dispatch (cfg : Cfg) (s : SimState) (e : Event) (fel1 : List Event) : SimState :=
  if e.kind = EKind.arrival ∧ e.cls = 0 then arrFpBranch cfg s e.t fel1
  else if e.kind = EKind.departure ∧ e.cls = 0 then depFpBranch cfg s e.t fel1
  else if e.kind = EKind.arrival ∧ e.cls = 1 then arrRegBranch cfg s e.t fel1
  else if e.kind = EKind.departure ∧ e.cls = 1 then depRegBranch cfg s e.t fel1
  else { s with time := e.t, fel := fel1 }

/-- One iteration of the event loop body (lines 71–194): pop the minimal
event, advance the clock to its scheduled time, and dispatch. -/
def stepBody (cfg : Cfg) (s : SimState) : SimState :=
  match popMin s.fel with
  | none => s
  | some (e, fel1) => dispatch cfg s e fel1

/-- Loop condition of line 70: the future event list is non-empty and
the total number of logged arrivals (regular + fastpass, in the
source's order) is below the cap (50000 in the source). -/
def loopCond (cap : ℕ) (s : SimState) : Prop :=
  s.fel ≠ [] ∧ s.arrival_times.2.length + s.arrival_times.1.length < cap

instance (cap : ℕ) (s : SimState) : Decidable (loopCond cap s) := by
  unfold loopCond; infer_instance

/-- One guarded loop iteration: apply the body while the loop condition
holds, identity once the loop has exited. -/
def stepIf (cfg : Cfg) (cap : ℕ) (s : SimState) : SimState :=
  if loopCond cap s then stepBody cfg s else s

/-- Initial state, lines 47–68: clock 0, counters 0, logs empty, and the
future event list seeded with one arrival drawn from the first
`rand_exp` and `is_fp` outcomes, scheduled at `0 + interarrival_time`. -/
def initState (cfg : Cfg) : SimState :=
  { time := 0, num_in_queue := (0, 0),
    arrival_times := ([], []), enter_service_times := ([], []),
    departure_times := ([], []),
    fel := [⟨classDraw cfg 0, 0 + cfg.expSeq 0, EKind.arrival⟩],
    eIdx := 1, uIdx := 1 }

/-- State after `k` iterations of the event loop. -/
def iterSim (cfg : Cfg) (cap : ℕ) (k : ℕ) : SimState :=
  (stepIf cfg cap)^[k] (initState cfg)

/-- Residence-time list of lines 200 and 208:
`[dep[i] - arr[i] for i in range(len(dep))]`.  The comprehension raises
`IndexError` (modelled as `none`) exactly when the departure log is
longer than the arrival log. -/
def residenceTimes (dep arr : List ℚ) : Option (List ℚ) :=
  if dep.length ≤ arr.length then some (List.zipWith (fun d a => d - a) dep arr) else none

/-- Average `sum(l) / len(l)` of lines 201 and 209; the division raises
`ZeroDivisionError` (modelled as `none`) on an empty list. -/
def avgList (l : List ℚ) : Option ℚ :=
  if l.length = 0 then none else some (l.sum / (l.length : ℚ))

/-- Statistics extraction after the loop, lines 200–212: the regular
residence times and average are computed first; if `fp_frac == 0` the
pair `(avg_res_time_reg, 0)` is returned (the Priority-side sentinel);
otherwise the fastpass residence times and average are computed and
`(avg_res_time_reg, avg_res_time_fp)` is returned. -/
def stats (fp_frac : ℚ) (s : SimState) : Option (ℚ × ℚ) := do
  let resReg ← residenceTimes s.departure_times.2 s.arrival_times.2
  let avgReg ← avgList resReg
  if fp_frac = 0 then
    pure (avgReg, 0)
  else do
    let resFp ← residenceTimes s.departure_times.1 s.arrival_times.1
    let avgFp ← avgList resFp
    pure (avgReg, avgFp)

/-- Number of departure events of class `c` in a future event list. -/
def countDep (c : Nat) : List Event → ℕ
  | [] => 0
  | e :: l => (if e.kind = EKind.departure ∧ e.cls = c then 1 else 0) + countDep c l

/-- Number of arrival events in a future event list. -/
def countArr : List Event → ℕ
  | [] => 0
  | e :: l => (if e.kind = EKind.arrival then 1 else 0) + countArr l

/-- Structural invariant of one class of the loop state: the counter is
the number of logged arrivals minus logged departures and is
non-negative; at most one departure event of the class is outstanding,
and only while the counter is positive (a customer is in service); the
service-entry log exceeds the departure log by exactly the number of
outstanding departure events. -/
def Side (q : ℤ) (arr es dep : List ℚ) (cd : ℕ) : Prop :=
  q = (arr.length : ℤ) - (dep.length : ℤ) ∧
  0 ≤ q ∧
  cd ≤ 1 ∧
  (cd = 1 → 1 ≤ q) ∧
  es.length = dep.length + cd

/-- Structural invariant of the loop state: every queued event carries a
class in {0, 1}, exactly one arrival event is queued, and both class
sides satisfy `Side`. -/
def Inv1 (s : SimState) : Prop :=
  (∀ e ∈ s.fel, e.cls = 0 ∨ e.cls = 1) ∧
  countArr s.fel = 1 ∧
  Side s.num_in_queue.1 s.arrival_times.1 s.enter_service_times.1 s.departure_times.1
    (countDep 0 s.fel) ∧
  Side s.num_in_queue.2 s.arrival_times.2 s.enter_service_times.2 s.departure_times.2
    (countDep 1 s.fel)

/-- Timing invariant of one class: every queued departure event of the
class is scheduled no earlier than the arrival times of all customers of
the class still in the system (the log indices from the departure-log
length up to the arrival-log length), and every matched
arrival/departure log pair is ordered. -/
def Inv2side (arr dep : List ℚ) (c : Nat) (fel : List Event) : Prop :=
  (∀ E ∈ fel, E.kind = EKind.departure → E.cls = c →
    ∀ i, dep.length ≤ i → i < arr.length → arr.getD i 0 ≤ E.t) ∧
  (∀ i, i < dep.length → arr.getD i 0 ≤ dep.getD i 0)

/-- Timing invariant of the loop state, for both classes. -/
def Inv2 (s : SimState) : Prop :=
  Inv2side s.arrival_times.1 s.departure_times.1 0 s.fel ∧
  Inv2side s.arrival_times.2 s.departure_times.2 1 s.fel

/-- Example run configuration with a mixed class sequence: the first
arrival is a fastpass customer (uniform draw 0 < 1/2), all later
arrivals are regular (draw 1 ≥ 1/2); the first two interarrival draws
are 1 and the first service draw is 10. -/
def cfgMixed : Cfg :=
  { arrival_rate := 1, fp_frac := 1/2,
    expSeq := fun n => if n = 2 then 10 else 1,
    uSeq := fun n => if n = 0 then 0 else 1 }

/-- State of the `cfgMixed` run after one iteration: the fastpass
arrival at time 1 was processed and entered service (departure scheduled
at 11), the next arrival is regular at time 2. -/
def mixedS1 : SimState :=
  { time := 1, num_in_queue := (1, 0), arrival_times := ([1], []),
    enter_service_times := ([1], []), departure_times := ([], []),
    fel := [⟨1, 2, EKind.arrival⟩, ⟨0, 11, EKind.departure⟩], eIdx := 3, uIdx := 2 }

/-- State of the `cfgMixed` run after two iterations: the fastpass
departure at time 11 was processed before the regular arrival at time 2,
because the heap orders events by class before scheduled time. -/
def mixedS2 : SimState :=
  { time := 11, num_in_queue := (0, 0), arrival_times := ([1], []),
    enter_service_times := ([1], []), departure_times := ([11], []),
    fel := [⟨1, 2, EKind.arrival⟩], eIdx := 3, uIdx := 2 }

/-- State of the `cfgMixed` run after three iterations: the regular
arrival at time 2 was processed and the clock moved backwards from 11
to 2. -/
def mixedS3 : SimState :=
  { time := 2, num_in_queue := (0, 1), arrival_times := ([1], [2]),
    enter_service_times := ([1], [2]), departure_times := ([11], []),
    fel := [⟨1, 3, EKind.arrival⟩, ⟨1, 3, EKind.departure⟩], eIdx := 5, uIdx := 3 }

/-- Example run configuration with every arrival regular
(`fp_frac = 0`): interarrival draws alternate with the service draw so
that the first regular customer departs at time 2 before the second
arrival at time 6. -/
def cfgAllReg : Cfg :=
  { arrival_rate := 1, fp_frac := 0,
    expSeq := fun n => if n = 1 then 5 else 1,
    uSeq := fun _ => 1/2 }

/-- Invalid configuration accepted silently by the engine: `fp_frac = 2`
lies outside [0, 1].  The streams are those of an all-fastpass run. -/
def cfgInvalid : Cfg :=
  { arrival_rate := 1, fp_frac := 2,
    expSeq := fun _ => 1,
    uSeq := fun _ => 1/2 }

/-- Example run configuration with every arrival a fastpass customer
(`fp_frac = 1`, so every uniform draw in [0, 1) selects class 0). -/
def cfgAllFp : Cfg :=
  { arrival_rate := 1, fp_frac := 1,
    expSeq := fun _ => 1,
    uSeq := fun _ => 1/2 }

/-- Invariant of single-class runs: every queued event has class `c` and
is scheduled no earlier than the current clock.  It holds throughout a
run in which every class draw yields `c` and all exponential draws are
non-negative, and makes the popped clock sequence non-decreasing. -/
def InvMono (c : Nat) (s : SimState) : Prop :=
  (∀ E ∈ s.fel, E.cls = c) ∧ ∀ E ∈ s.fel, s.time ≤ E.t

/-- The engine entry point `simulate(arrival_rate, fp_frac)` for a given
outcome assignment of the random variate source: run the event loop with
the source's cap of 50000 arrivals and extract the statistics.  The fuel
`2 * 50000 + 2` dominates the iteration count of the loop (each
iteration pops one event; at most `cap` arrivals and `cap + 1` further
events are ever pushed), and `stepIf` is the identity after the loop
condition fails, so the iterate is the loop's final state. -/
def simulate (cfg : Cfg) : Option (ℚ × ℚ) :=
  stats cfg.fp_frac (iterSim cfg 50000 100002)

/-- Composite ordering key of an event, as a lexicographic triple:
class first, then scheduled time, then kind rank. -/
def Event.key (e : Event) : ℕ ×ₗ (ℚ ×ₗ ℕ) :=
  toLex (e.cls, toLex (e.t, e.kind.toNat))

theorem leB_iff_key (a b : Event) : a.leB b = true ↔ a.key ≤ b.key := by
  unfold Event.leB Event.key
  rw [Prod.Lex.le_iff, Prod.Lex.le_iff]
  dsimp only
  split_ifs with h1 h2 h3 h4
  · simp [h1]
  · have hne : ¬a.cls = b.cls := by omega
    have hnl : ¬a.cls < b.cls := by omega
    simp [hne, hnl]
  · have hc : a.cls = b.cls := by omega
    simp [hc, h3]
  · have hc : a.cls = b.cls := by omega
    have hnt : ¬a.t < b.t := by linarith
    have hne : ¬a.t = b.t := by intro h; rw [h] at h4; exact lt_irrefl _ h4
    simp [hc, hnt, hne, lt_irrefl]
  · have hc : a.cls = b.cls := by omega
    have ht : a.t = b.t := le_antisymm (not_lt.mp h4) (not_lt.mp h3)
    simp [hc, ht, lt_irrefl, decide_eq_true_iff]

theorem leB_refl (a : Event) : a.leB a = true :=
  (leB_iff_key a a).mpr le_rfl

theorem leB_trans {a b c : Event} (h1 : a.leB b = true) (h2 : b.leB c = true) :
    a.leB c = true :=
  (leB_iff_key a c).mpr (le_trans ((leB_iff_key a b).mp h1) ((leB_iff_key b c).mp h2))

theorem leB_total (a b : Event) : a.leB b = true ∨ b.leB a = true := by
  rcases le_total a.key b.key with h | h
  · exact Or.inl ((leB_iff_key a b).mpr h)
  · exact Or.inr ((leB_iff_key b a).mpr h)

/-- The stored composite key orders class before time: `a.leB b` means
`a`'s class is smaller, or the classes agree and `a`'s scheduled time is
no later. -/
theorem leB_cls_time {a b : Event} (h : a.leB b = true) :
    a.cls < b.cls ∨ (a.cls = b.cls ∧ a.t ≤ b.t) := by
  have hk := (leB_iff_key a b).mp h
  unfold Event.key at hk
  rw [Prod.Lex.le_iff] at hk
  rcases hk with hk | ⟨h1, h2⟩
  · exact Or.inl hk
  · refine Or.inr ⟨h1, ?_⟩
    rw [Prod.Lex.le_iff] at h2
    rcases h2 with h2 | ⟨h2, _⟩
    · exact le_of_lt h2
    · exact le_of_eq h2

theorem leB_same_cls {a b : Event} (h : a.leB b = true) (hc : a.cls = b.cls) :
    a.t ≤ b.t := by
  rcases leB_cls_time h with h' | ⟨_, h'⟩
  · omega
  · exact h'

theorem popMin_eq_none {l : List Event} : popMin l = none ↔ l = [] := by
  cases l with
  | nil => simp [popMin]
  | cons x xs =>
    have hne : popMin (x :: xs) ≠ none := by
      simp only [popMin]
      cases hx : popMin xs with
      | none => simp
      | some p =>
        obtain ⟨m, r⟩ := p
        by_cases hle : Event.leB x m = true <;> simp [hle]
    simp [hne]

/-- Popping returns a permutation: the future event list is the popped
event together with the returned remainder. -/
theorem popMin_perm : ∀ {l : List Event} {e : Event} {r : List Event},
    popMin l = some (e, r) → l.Perm (e :: r) := by
  intro l
  induction l with
  | nil => intro e r h; simp [popMin] at h
  | cons x xs ih =>
    intro e r h
    simp only [popMin] at h
    cases hx : popMin xs with
    | none =>
      rw [hx] at h
      have hxs : xs = [] := popMin_eq_none.mp hx
      injection h with h1
      injection h1 with h2 h3
      subst h2; subst h3; subst hxs
      exact List.Perm.refl _
    | some p =>
      obtain ⟨m, rest⟩ := p
      rw [hx] at h
      dsimp only at h
      by_cases hle : Event.leB x m = true
      · rw [if_pos hle] at h
        injection h with h1
        injection h1 with h2 h3
        subst h2; subst h3
        exact List.Perm.refl _
      · rw [if_neg hle] at h
        injection h with h1
        injection h1 with h2 h3
        subst h2; subst h3
        exact ((ih hx).cons x).trans (List.Perm.swap m x rest)

/-- Popping returns a minimal element of the future event list under the
event order. -/
theorem popMin_min : ∀ {l : List Event} {e : Event} {r : List Event},
    popMin l = some (e, r) → ∀ x ∈ l, e.leB x = true := by
  intro l
  induction l with
  | nil => intro e r h; simp [popMin] at h
  | cons y xs ih =>
    intro e r h x hx
    simp only [popMin] at h
    cases hy : popMin xs with
    | none =>
      rw [hy] at h
      have hxs : xs = [] := popMin_eq_none.mp hy
      injection h with h1
      injection h1 with h2 h3
      subst hxs
      rcases List.mem_singleton.mp hx with h'
      rw [← h2, h']
      exact leB_refl y
    | some p =>
      obtain ⟨m, rest⟩ := p
      rw [hy] at h
      dsimp only at h
      by_cases hle : Event.leB y m = true
      · rw [if_pos hle] at h
        injection h with h1
        injection h1 with h2 h3
        rcases List.mem_cons.mp hx with h' | h'
        · rw [← h2, h']; exact leB_refl y
        · rw [← h2]; exact leB_trans hle (ih hy x h')
      · rw [if_neg hle] at h
        injection h with h1
        injection h1 with h2 h3
        rcases List.mem_cons.mp hx with h' | h'
        · rw [← h2, h']
          rcases leB_total m y with h'' | h''
          · exact h''
          · exact absurd h'' hle
        · rw [← h2]; exact ih hy x h'

theorem popMin_mem {l : List Event} {e : Event} {r : List Event}
    (h : popMin l = some (e, r)) : e ∈ l :=
  (popMin_perm h).symm.subset (List.mem_cons_self e r)

theorem popMin_of_ne_nil {l : List Event} (h : l ≠ []) :
    ∃ e r, popMin l = some (e, r) := by
  cases hp : popMin l with
  | none => exact absurd (popMin_eq_none.mp hp) h
  | some p =>
    obtain ⟨e, r⟩ := p
    exact ⟨e, r, rfl⟩

theorem countDep_cons (c : Nat) (x : Event) (l : List Event) :
    countDep c (x :: l) =
      (if x.kind = EKind.departure ∧ x.cls = c then 1 else 0) + countDep c l := rfl

theorem countDep_nil (c : Nat) : countDep c [] = 0 := rfl

theorem countArr_cons (x : Event) (l : List Event) :
    countArr (x :: l) = (if x.kind = EKind.arrival then 1 else 0) + countArr l := rfl

theorem countArr_nil : countArr [] = 0 := rfl

theorem countDep_append (c : Nat) (l1 l2 : List Event) :
    countDep c (l1 ++ l2) = countDep c l1 + countDep c l2 := by
  induction l1 with
  | nil => simp [countDep]
  | cons x xs ih => simp [countDep, ih]; omega

theorem countArr_append (l1 l2 : List Event) :
    countArr (l1 ++ l2) = countArr l1 + countArr l2 := by
  induction l1 with
  | nil => simp [countArr]
  | cons x xs ih => simp [countArr, ih]; omega

theorem countDep_perm {l l' : List Event} (h : l.Perm l') (c : Nat) :
    countDep c l = countDep c l' := by
  induction h with
  | nil => rfl
  | cons x _ ih => simp [countDep, ih]
  | swap x y l => simp [countDep]; omega
  | trans _ _ ih1 ih2 => rw [ih1, ih2]

theorem countArr_perm {l l' : List Event} (h : l.Perm l') :
    countArr l = countArr l' := by
  induction h with
  | nil => rfl
  | cons x _ ih => simp [countArr, ih]
  | swap x y l => simp [countArr]; omega
  | trans _ _ ih1 ih2 => rw [ih1, ih2]

theorem countDep_pos_of_mem {c : Nat} {l : List Event} {e : Event}
    (hm : e ∈ l) (hk : e.kind = EKind.departure) (hc : e.cls = c) :
    1 ≤ countDep c l := by
  induction l with
  | nil => cases hm
  | cons x xs ih =>
    rw [countDep_cons]
    rcases List.mem_cons.mp hm with h' | h'
    · subst h'
      rw [if_pos ⟨hk, hc⟩]
      omega
    · have := ih h'
      omega

theorem countDep_eq_zero_no_dep {c : Nat} {l : List Event}
    (h : countDep c l = 0) :
    ∀ e ∈ l, e.kind = EKind.departure → e.cls = c → False := by
  intro e hm hk hc
  have := countDep_pos_of_mem hm hk hc
  omega

theorem is_fp_mem (fp_frac u : ℚ) : is_fp fp_frac u = 0 ∨ is_fp fp_frac u = 1 := by
  unfold is_fp
  split_ifs <;> simp

theorem classDraw_mem (cfg : Cfg) (n : ℕ) : classDraw cfg n = 0 ∨ classDraw cfg n = 1 :=
  is_fp_mem _ _

theorem inv1_init (cfg : Cfg) : Inv1 (initState cfg) := by
  refine ⟨?_, ?_, ?_, ?_⟩
  · intro e he
    simp only [initState, List.mem_singleton] at he
    subst he
    exact classDraw_mem cfg 0
  · simp [initState, countArr]
  · simp [initState, Side, countDep]
  · simp [initState, Side, countDep]

theorem stepBody_eq_dispatch {cfg : Cfg} {s : SimState} {e : Event} {r : List Event}
    (h : popMin s.fel = some (e, r)) : stepBody cfg s = dispatch cfg s e r := by
  unfold stepBody
  rw [h]

theorem stepIf_eq_dispatch {cfg : Cfg} {cap : ℕ} {s : SimState} {e : Event} {r : List Event}
    (hc : loopCond cap s) (h : popMin s.fel = some (e, r)) :
    stepIf cfg cap s = dispatch cfg s e r := by
  rw [stepIf, if_pos hc, stepBody_eq_dispatch h]

theorem stepIf_of_not_cond {cfg : Cfg} {cap : ℕ} {s : SimState}
    (hc : ¬ loopCond cap s) : stepIf cfg cap s = s := by
  rw [stepIf, if_neg hc]

theorem dispatch_arrFp (cfg : Cfg) (s : SimState) (t : ℚ) (r : List Event) :
    dispatch cfg s ⟨0, t, EKind.arrival⟩ r = arrFpBranch cfg s t r := by
  unfold dispatch
  simp

theorem dispatch_depFp (cfg : Cfg) (s : SimState) (t : ℚ) (r : List Event) :
    dispatch cfg s ⟨0, t, EKind.departure⟩ r = depFpBranch cfg s t r := by
  unfold dispatch
  simp

theorem dispatch_arrReg (cfg : Cfg) (s : SimState) (t : ℚ) (r : List Event) :
    dispatch cfg s ⟨1, t, EKind.arrival⟩ r = arrRegBranch cfg s t r := by
  unfold dispatch
  simp

theorem dispatch_depReg (cfg : Cfg) (s : SimState) (t : ℚ) (r : List Event) :
    dispatch cfg s ⟨1, t, EKind.departure⟩ r = depRegBranch cfg s t r := by
  unfold dispatch
  simp

theorem iterSim_zero (cfg : Cfg) (cap : ℕ) : iterSim cfg cap 0 = initState cfg := rfl

theorem iterSim_succ (cfg : Cfg) (cap : ℕ) (k : ℕ) :
    iterSim cfg cap (k + 1) = stepIf cfg cap (iterSim cfg cap k) := by
  unfold iterSim
  exact Function.iterate_succ_apply' _ _ _

theorem mixed_pop0 :
    popMin (initState cfgMixed).fel = some (⟨0, 1, EKind.arrival⟩, []) := by
  norm_num [initState, popMin, classDraw, is_fp, cfgMixed]

theorem mixed_step1 : stepIf cfgMixed 50000 (initState cfgMixed) = mixedS1 := by
  rw [stepIf_eq_dispatch (show loopCond 50000 (initState cfgMixed) by decide) mixed_pop0,
    dispatch_arrFp]
  norm_num [arrFpBranch, initState, mixedS1, cfgMixed, classDraw, is_fp]

theorem mixed_pop1 :
    popMin mixedS1.fel = some (⟨0, 11, EKind.departure⟩, [⟨1, 2, EKind.arrival⟩]) := by
  norm_num [mixedS1, popMin, Event.leB, EKind.toNat]

theorem mixed_step2 : stepIf cfgMixed 50000 mixedS1 = mixedS2 := by
  rw [stepIf_eq_dispatch (show loopCond 50000 mixedS1 by decide) mixed_pop1, dispatch_depFp]
  norm_num [depFpBranch, mixedS1, mixedS2, cfgMixed]

theorem mixed_pop2 :
    popMin mixedS2.fel = some (⟨1, 2, EKind.arrival⟩, []) := by
  norm_num [mixedS2, popMin]

theorem mixed_step3 : stepIf cfgMixed 50000 mixedS2 = mixedS3 := by
  rw [stepIf_eq_dispatch (show loopCond 50000 mixedS2 by decide) mixed_pop2, dispatch_arrReg]
  norm_num [arrRegBranch, mixedS2, mixedS3, cfgMixed, classDraw, is_fp]

theorem mixed_iter1 : iterSim cfgMixed 50000 1 = mixedS1 := by
  rw [iterSim_succ, iterSim_zero, mixed_step1]

theorem mixed_iter2 : iterSim cfgMixed 50000 2 = mixedS2 := by
  rw [iterSim_succ, mixed_iter1, mixed_step2]

theorem mixed_iter3 : iterSim cfgMixed 50000 3 = mixedS3 := by
  rw [iterSim_succ, mixed_iter2, mixed_step3]

theorem inv1_arrFp (cfg : Cfg) (s : SimState) (t : ℚ) (r : List Event)
    (h : Inv1 s) (hperm : s.fel.Perm (⟨0, t, EKind.arrival⟩ :: r)) :
    Inv1 (arrFpBranch cfg s t r) := by
  obtain ⟨hcls, harr, hs0, hs1⟩ := h
  obtain ⟨hq0, hq0n, hcd0le, hcd0q, hes0⟩ := hs0
  obtain ⟨hq1, hq1n, hcd1le, hcd1q, hes1⟩ := hs1
  have hrsub : ∀ x ∈ r, x ∈ s.fel := fun x hx =>
    hperm.symm.subset (List.mem_cons_of_mem _ hx)
  have hDr0 : countDep 0 s.fel = countDep 0 r := by
    have hh := countDep_perm hperm 0
    rw [countDep_cons] at hh
    simpa using hh
  have hDr1 : countDep 1 s.fel = countDep 1 r := by
    have hh := countDep_perm hperm 1
    rw [countDep_cons] at hh
    simpa using hh
  have hAr : countArr r = 0 := by
    have hh := countArr_perm hperm
    rw [countArr_cons] at hh
    simp at hh
    omega
  unfold arrFpBranch
  dsimp only
  split_ifs with hq
  · -- the arriving fastpass customer enters service and a departure is pushed
    have hcd0r : countDep 0 r = 0 := by
      by_cases hone : countDep 0 s.fel = 1
      · have := hcd0q hone
        omega
      · omega
    unfold Inv1 Side
    dsimp only
    refine ⟨?_, ?_, ⟨?_, ?_, ?_, ?_, ?_⟩, ⟨?_, ?_, ?_, ?_, ?_⟩⟩
    · intro x hx
      simp only [List.append_assoc, List.mem_append, List.mem_cons,
        List.not_mem_nil, or_false] at hx
      rcases hx with hx | hx | hx
      · exact hcls x (hrsub x hx)
      · subst hx; exact classDraw_mem cfg s.uIdx
      · subst hx; exact Or.inl rfl
    · simp [countArr_append, countArr_cons, countArr_nil, hAr]
    · try simp only [List.length_append, List.length_singleton]
      push_cast
      omega
    · omega
    · simp only [countDep_append, countDep_cons, countDep_nil]
      try simp
      omega
    · simp only [countDep_append, countDep_cons, countDep_nil]
      try simp
      omega
    · simp only [countDep_append, countDep_cons, countDep_nil, List.length_append,
        List.length_singleton]
      try simp
      omega
    · try simp only [List.length_append, List.length_singleton]
      push_cast
      omega
    · omega
    · simp only [countDep_append, countDep_cons, countDep_nil]
      try simp
      omega
    · simp only [countDep_append, countDep_cons, countDep_nil]
      try simp
      intro hone
      exact hcd1q (by omega)
    · simp only [countDep_append, countDep_cons, countDep_nil, List.length_append,
        List.length_singleton]
      try simp
      omega
  · -- the fastpass queue was not empty: no service entry
    unfold Inv1 Side
    dsimp only
    refine ⟨?_, ?_, ⟨?_, ?_, ?_, ?_, ?_⟩, ⟨?_, ?_, ?_, ?_, ?_⟩⟩
    · intro x hx
      simp only [List.mem_append, List.mem_cons, List.not_mem_nil, or_false] at hx
      rcases hx with hx | hx
      · exact hcls x (hrsub x hx)
      · subst hx; exact classDraw_mem cfg s.uIdx
    · simp [countArr_append, countArr_cons, countArr_nil, hAr]
    · try simp only [List.length_append, List.length_singleton]
      push_cast
      omega
    · omega
    · simp only [countDep_append, countDep_cons, countDep_nil]
      try simp
      omega
    · simp only [countDep_append, countDep_cons, countDep_nil]
      try simp
      intro hone
      have := hcd0q (by omega)
      omega
    · simp only [countDep_append, countDep_cons, countDep_nil, List.length_append,
        List.length_singleton]
      try simp
      omega
    · try simp only [List.length_append, List.length_singleton]
      push_cast
      omega
    · omega
    · simp only [countDep_append, countDep_cons, countDep_nil]
      try simp
      omega
    · simp only [countDep_append, countDep_cons, countDep_nil]
      try simp
      intro hone
      exact hcd1q (by omega)
    · simp only [countDep_append, countDep_cons, countDep_nil, List.length_append,
        List.length_singleton]
      try simp
      omega

theorem inv1_depFp (cfg : Cfg) (s : SimState) (t : ℚ) (r : List Event)
    (h : Inv1 s) (hperm : s.fel.Perm (⟨0, t, EKind.departure⟩ :: r)) :
    Inv1 (depFpBranch cfg s t r) := by
  obtain ⟨hcls, harr, hs0, hs1⟩ := h
  obtain ⟨hq0, hq0n, hcd0le, hcd0q, hes0⟩ := hs0
  obtain ⟨hq1, hq1n, hcd1le, hcd1q, hes1⟩ := hs1
  have hrsub : ∀ x ∈ r, x ∈ s.fel := fun x hx =>
    hperm.symm.subset (List.mem_cons_of_mem _ hx)
  have hDr0 : countDep 0 s.fel = 1 + countDep 0 r := by
    have hh := countDep_perm hperm 0
    rw [countDep_cons] at hh
    simpa using hh
  have hDr1 : countDep 1 s.fel = countDep 1 r := by
    have hh := countDep_perm hperm 1
    rw [countDep_cons] at hh
    simpa using hh
  have hAr : countArr r = 1 := by
    have hh := countArr_perm hperm
    rw [countArr_cons] at hh
    simp at hh
    omega
  have hcd0r : countDep 0 r = 0 := by omega
  have hq0ge : 1 ≤ s.num_in_queue.1 := hcd0q (by omega)
  unfold depFpBranch
  dsimp only
  split_ifs with hq
  · -- a waiting fastpass customer enters service; a new departure is pushed
    unfold Inv1 Side
    dsimp only
    refine ⟨?_, ?_, ⟨?_, ?_, ?_, ?_, ?_⟩, ⟨?_, ?_, ?_, ?_, ?_⟩⟩
    · intro x hx
      simp only [List.mem_append, List.mem_cons, List.not_mem_nil, or_false] at hx
      rcases hx with hx | hx
      · exact hcls x (hrsub x hx)
      · subst hx; exact Or.inl rfl
    · simp [countArr_append, countArr_cons, countArr_nil, hAr]
    · try simp only [List.length_append, List.length_singleton]
      push_cast
      omega
    · omega
    · simp only [countDep_append, countDep_cons, countDep_nil]
      try simp
      omega
    · simp only [countDep_append, countDep_cons, countDep_nil]
      try simp
      intro hone
      omega
    · simp only [countDep_append, countDep_cons, countDep_nil, List.length_append,
        List.length_singleton]
      try simp
      omega
    · try simp only [List.length_append, List.length_singleton]
      push_cast
      omega
    · omega
    · simp only [countDep_append, countDep_cons, countDep_nil]
      try simp
      omega
    · simp only [countDep_append, countDep_cons, countDep_nil]
      try simp
      intro hone
      exact hcd1q (by omega)
    · simp only [countDep_append, countDep_cons, countDep_nil, List.length_append,
        List.length_singleton]
      try simp
      omega
  · -- no fastpass customer remains waiting: nothing is pushed
    unfold Inv1 Side
    dsimp only
    refine ⟨?_, ?_, ⟨?_, ?_, ?_, ?_, ?_⟩, ⟨?_, ?_, ?_, ?_, ?_⟩⟩
    · intro x hx
      exact hcls x (hrsub x hx)
    · omega
    · try simp only [List.length_append, List.length_singleton]
      push_cast
      omega
    · omega
    · omega
    · intro hone
      omega
    · simp only [List.length_append, List.length_singleton]
      omega
    · push_cast
      omega
    · omega
    · omega
    · intro hone
      exact hcd1q (by omega)
    · omega

theorem inv1_arrReg (cfg : Cfg) (s : SimState) (t : ℚ) (r : List Event)
    (h : Inv1 s) (hperm : s.fel.Perm (⟨1, t, EKind.arrival⟩ :: r)) :
    Inv1 (arrRegBranch cfg s t r) := by
  obtain ⟨hcls, harr, hs0, hs1⟩ := h
  obtain ⟨hq0, hq0n, hcd0le, hcd0q, hes0⟩ := hs0
  obtain ⟨hq1, hq1n, hcd1le, hcd1q, hes1⟩ := hs1
  have hrsub : ∀ x ∈ r, x ∈ s.fel := fun x hx =>
    hperm.symm.subset (List.mem_cons_of_mem _ hx)
  have hDr0 : countDep 0 s.fel = countDep 0 r := by
    have hh := countDep_perm hperm 0
    rw [countDep_cons] at hh
    simpa using hh
  have hDr1 : countDep 1 s.fel = countDep 1 r := by
    have hh := countDep_perm hperm 1
    rw [countDep_cons] at hh
    simpa using hh
  have hAr : countArr r = 0 := by
    have hh := countArr_perm hperm
    rw [countArr_cons] at hh
    simp at hh
    omega
  unfold arrRegBranch
  dsimp only
  split_ifs with hq
  · -- the arriving regular customer enters service and a departure is pushed
    obtain ⟨hq1eq, hq0eq⟩ := hq
    have hcd1r : countDep 1 r = 0 := by
      by_cases hone : countDep 1 s.fel = 1
      · have := hcd1q hone
        omega
      · omega
    unfold Inv1 Side
    dsimp only
    refine ⟨?_, ?_, ⟨?_, ?_, ?_, ?_, ?_⟩, ⟨?_, ?_, ?_, ?_, ?_⟩⟩
    · intro x hx
      simp only [List.append_assoc, List.mem_append, List.mem_cons,
        List.not_mem_nil, or_false] at hx
      rcases hx with hx | hx | hx
      · exact hcls x (hrsub x hx)
      · subst hx; exact classDraw_mem cfg s.uIdx
      · subst hx; exact Or.inr rfl
    · simp [countArr_append, countArr_cons, countArr_nil, hAr]
    · try simp only [List.length_append, List.length_singleton]
      push_cast
      omega
    · omega
    · simp only [countDep_append, countDep_cons, countDep_nil]
      try simp
      omega
    · simp only [countDep_append, countDep_cons, countDep_nil]
      try simp
      intro hone
      exact hcd0q (by omega)
    · simp only [countDep_append, countDep_cons, countDep_nil, List.length_append,
        List.length_singleton]
      try simp
      omega
    · try simp only [List.length_append, List.length_singleton]
      push_cast
      omega
    · omega
    · simp only [countDep_append, countDep_cons, countDep_nil]
      try simp
      omega
    · simp only [countDep_append, countDep_cons, countDep_nil]
      try simp
      intro hone
      omega
    · simp only [countDep_append, countDep_cons, countDep_nil, List.length_append,
        List.length_singleton]
      try simp
      omega
  · -- the regular customer waits (queue not empty, or a fastpass is present)
    unfold Inv1 Side
    dsimp only
    refine ⟨?_, ?_, ⟨?_, ?_, ?_, ?_, ?_⟩, ⟨?_, ?_, ?_, ?_, ?_⟩⟩
    · intro x hx
      simp only [List.mem_append, List.mem_cons, List.not_mem_nil, or_false] at hx
      rcases hx with hx | hx
      · exact hcls x (hrsub x hx)
      · subst hx; exact classDraw_mem cfg s.uIdx
    · simp [countArr_append, countArr_cons, countArr_nil, hAr]
    · try simp only [List.length_append, List.length_singleton]
      push_cast
      omega
    · omega
    · simp only [countDep_append, countDep_cons, countDep_nil]
      try simp
      omega
    · simp only [countDep_append, countDep_cons, countDep_nil]
      try simp
      intro hone
      exact hcd0q (by omega)
    · simp only [countDep_append, countDep_cons, countDep_nil, List.length_append,
        List.length_singleton]
      try simp
      omega
    · try simp only [List.length_append, List.length_singleton]
      push_cast
      omega
    · omega
    · simp only [countDep_append, countDep_cons, countDep_nil]
      try simp
      omega
    · simp only [countDep_append, countDep_cons, countDep_nil]
      try simp
      intro hone
      have := hcd1q (by omega)
      omega
    · simp only [countDep_append, countDep_cons, countDep_nil, List.length_append,
        List.length_singleton]
      try simp
      omega

theorem inv1_depReg (cfg : Cfg) (s : SimState) (t : ℚ) (r : List Event)
    (h : Inv1 s) (hperm : s.fel.Perm (⟨1, t, EKind.departure⟩ :: r)) :
    Inv1 (depRegBranch cfg s t r) := by
  obtain ⟨hcls, harr, hs0, hs1⟩ := h
  obtain ⟨hq0, hq0n, hcd0le, hcd0q, hes0⟩ := hs0
  obtain ⟨hq1, hq1n, hcd1le, hcd1q, hes1⟩ := hs1
  have hrsub : ∀ x ∈ r, x ∈ s.fel := fun x hx =>
    hperm.symm.subset (List.mem_cons_of_mem _ hx)
  have hDr0 : countDep 0 s.fel = countDep 0 r := by
    have hh := countDep_perm hperm 0
    rw [countDep_cons] at hh
    simpa using hh
  have hDr1 : countDep 1 s.fel = 1 + countDep 1 r := by
    have hh := countDep_perm hperm 1
    rw [countDep_cons] at hh
    simpa using hh
  have hAr : countArr r = 1 := by
    have hh := countArr_perm hperm
    rw [countArr_cons] at hh
    simp at hh
    omega
  have hcd1r : countDep 1 r = 0 := by omega
  have hq1ge : 1 ≤ s.num_in_queue.2 := hcd1q (by omega)
  unfold depRegBranch
  dsimp only
  split_ifs with hq
  · -- a waiting regular customer enters service; a new departure is pushed
    unfold Inv1 Side
    dsimp only
    refine ⟨?_, ?_, ⟨?_, ?_, ?_, ?_, ?_⟩, ⟨?_, ?_, ?_, ?_, ?_⟩⟩
    · intro x hx
      simp only [List.mem_append, List.mem_cons, List.not_mem_nil, or_false] at hx
      rcases hx with hx | hx
      · exact hcls x (hrsub x hx)
      · subst hx; exact Or.inr rfl
    · simp [countArr_append, countArr_cons, countArr_nil, hAr]
    · try simp only [List.length_append, List.length_singleton]
      push_cast
      omega
    · omega
    · simp only [countDep_append, countDep_cons, countDep_nil]
      try simp
      omega
    · simp only [countDep_append, countDep_cons, countDep_nil]
      try simp
      intro hone
      exact hcd0q (by omega)
    · simp only [countDep_append, countDep_cons, countDep_nil, List.length_append,
        List.length_singleton]
      try simp
      omega
    · try simp only [List.length_append, List.length_singleton]
      push_cast
      omega
    · omega
    · simp only [countDep_append, countDep_cons, countDep_nil]
      try simp
      omega
    · simp only [countDep_append, countDep_cons, countDep_nil]
      try simp
      intro hone
      omega
    · simp only [countDep_append, countDep_cons, countDep_nil, List.length_append,
        List.length_singleton]
      try simp
      omega
  · -- no regular customer remains waiting: nothing is pushed
    unfold Inv1 Side
    dsimp only
    refine ⟨?_, ?_, ⟨?_, ?_, ?_, ?_, ?_⟩, ⟨?_, ?_, ?_, ?_, ?_⟩⟩
    · intro x hx
      exact hcls x (hrsub x hx)
    · omega
    · push_cast
      omega
    · omega
    · omega
    · intro hone
      exact hcd0q (by omega)
    · omega
    · simp only [List.length_append, List.length_singleton]
      push_cast
      omega
    · omega
    · omega
    · intro hone
      omega
    · simp only [List.length_append, List.length_singleton]
      omega

theorem inv1_stepIf (cfg : Cfg) (cap : ℕ) {s : SimState} (h : Inv1 s) :
    Inv1 (stepIf cfg cap s) := by
  by_cases hc : loopCond cap s
  · obtain ⟨e, r, hpop⟩ := popMin_of_ne_nil hc.1
    rw [stepIf_eq_dispatch hc hpop]
    have hperm := popMin_perm hpop
    have hecls := h.1 e (popMin_mem hpop)
    obtain ⟨cls, te, kind⟩ := e
    dsimp only at hecls
    cases kind with
    | arrival =>
      rcases hecls with h0 | h0
      · subst h0
        rw [dispatch_arrFp]
        exact inv1_arrFp cfg s te r h hperm
      · subst h0
        rw [dispatch_arrReg]
        exact inv1_arrReg cfg s te r h hperm
    | departure =>
      rcases hecls with h0 | h0
      · subst h0
        rw [dispatch_depFp]
        exact inv1_depFp cfg s te r h hperm
      · subst h0
        rw [dispatch_depReg]
        exact inv1_depReg cfg s te r h hperm
  · rw [stepIf_of_not_cond hc]
    exact h

/-- Every state reached by the event loop satisfies the structural
invariant. -/
theorem inv1_iterSim (cfg : Cfg) (cap k : ℕ) : Inv1 (iterSim cfg cap k) := by
  induction k with
  | zero => exact inv1_init cfg
  | succ n ih =>
    rw [iterSim_succ]
    exact inv1_stepIf cfg cap ih

/-- C7: at every iteration boundary of the event loop (any cap, in
particular the source's 50000), both per-class queue-length counters are
non-negative, and whenever the next event to be processed is a Departure
event of a class, that class's counter is strictly positive before the
decrement. -/
theorem c7_counters_nonneg_and_positive_at_departure (cfg : Cfg) (cap k : ℕ) :
    0 ≤ (iterSim cfg cap k).num_in_queue.1 ∧
    0 ≤ (iterSim cfg cap k).num_in_queue.2 ∧
    (∀ e r, popMin (iterSim cfg cap k).fel = some (e, r) →
      e.kind = EKind.departure →
      1 ≤ (if e.cls = 0 then (iterSim cfg cap k).num_in_queue.1
           else (iterSim cfg cap k).num_in_queue.2)) := by
  obtain ⟨hcls, harr, hs0, hs1⟩ := inv1_iterSim cfg cap k
  obtain ⟨hq0, hq0n, hcd0le, hcd0q, hes0⟩ := hs0
  obtain ⟨hq1, hq1n, hcd1le, hcd1q, hes1⟩ := hs1
  refine ⟨hq0n, hq1n, ?_⟩
  intro e r hpop hk
  have hmem := popMin_mem hpop
  have hcd := countDep_pos_of_mem hmem hk rfl
  rcases hcls e hmem with h0 | h0
  · rw [h0] at hcd
    rw [if_pos h0]
    exact hcd0q (by omega)
  · rw [h0] at hcd
    rw [if_neg (by omega)]
    exact hcd1q (by omega)

/-- C7, witness: in the `cfgMixed` run after one iteration the next
event is the fastpass departure at time 11, and the fastpass counter is
1 > 0 before the decrement; both counters are non-negative. -/
theorem c7_counters_witness :
    0 ≤ (iterSim cfgMixed 50000 1).num_in_queue.1 ∧
    1 ≤ (iterSim cfgMixed 50000 1).num_in_queue.1 := by
  have h := c7_counters_nonneg_and_positive_at_departure cfgMixed 50000 1
  refine ⟨h.1, ?_⟩
  have h3 := h.2.2 ⟨0, 11, EKind.departure⟩ [⟨1, 2, EKind.arrival⟩]
    (by rw [mixed_iter1]; exact mixed_pop1) rfl
  simpa using h3

/-- C8: at every iteration boundary of the event loop (hence also at
termination), for each class the departure log is no longer than the
service-entry log, which is no longer than the arrival log. -/
theorem c8_log_lengths_ordered (cfg : Cfg) (cap k : ℕ) :
    ((iterSim cfg cap k).departure_times.1.length ≤
        (iterSim cfg cap k).enter_service_times.1.length ∧
      (iterSim cfg cap k).enter_service_times.1.length ≤
        (iterSim cfg cap k).arrival_times.1.length) ∧
    ((iterSim cfg cap k).departure_times.2.length ≤
        (iterSim cfg cap k).enter_service_times.2.length ∧
      (iterSim cfg cap k).enter_service_times.2.length ≤
        (iterSim cfg cap k).arrival_times.2.length) := by
  obtain ⟨hcls, harr, hs0, hs1⟩ := inv1_iterSim cfg cap k
  obtain ⟨hq0, hq0n, hcd0le, hcd0q, hes0⟩ := hs0
  obtain ⟨hq1, hq1n, hcd1le, hcd1q, hes1⟩ := hs1
  constructor
  · constructor
    · omega
    · by_cases hone : countDep 0 (iterSim cfg cap k).fel = 1
      · have := hcd0q hone
        omega
      · omega
  · constructor
    · omega
    · by_cases hone : countDep 1 (iterSim cfg cap k).fel = 1
      · have := hcd1q hone
        omega
      · omega

/-- C10: at every iteration boundary of the event loop the future-event
queue holds exactly one Arrival event (seeded with one, and each
processed Arrival pushes exactly one new Arrival while Departures push
none), hence the queue is never empty while the loop runs, and the loop
condition can only fail because the arrival cap has been reached. -/
theorem c10_one_arrival_queued (cfg : Cfg) (cap k : ℕ) :
    countArr (iterSim cfg cap k).fel = 1 ∧
    (iterSim cfg cap k).fel ≠ [] ∧
    (¬ loopCond cap (iterSim cfg cap k) →
      cap ≤ (iterSim cfg cap k).arrival_times.2.length +
        (iterSim cfg cap k).arrival_times.1.length) := by
  obtain ⟨hcls, harr, hs0, hs1⟩ := inv1_iterSim cfg cap k
  have hne : (iterSim cfg cap k).fel ≠ [] := by
    intro h
    rw [h] at harr
    simp [countArr] at harr
  refine ⟨harr, hne, ?_⟩
  intro hnc
  unfold loopCond at hnc
  rcases not_and_or.mp hnc with h | h
  · exact absurd hne h
  · omega

theorem mixed_step1_cap1 : stepIf cfgMixed 1 (initState cfgMixed) = mixedS1 := by
  rw [stepIf_eq_dispatch (show loopCond 1 (initState cfgMixed) by decide) mixed_pop0,
    dispatch_arrFp]
  norm_num [arrFpBranch, initState, mixedS1, cfgMixed, classDraw, is_fp]

theorem mixed_iter1_cap1 : iterSim cfgMixed 1 1 = mixedS1 := by
  rw [iterSim_succ, iterSim_zero, mixed_step1_cap1]

/-- C10, witness: with cap 1 the `cfgMixed` run exits the loop after one
iteration; the queue still holds exactly one Arrival event, is
non-empty, and the loop exit is due to the arrival count having reached
the cap. -/
theorem c10_one_arrival_queued_witness :
    countArr (iterSim cfgMixed 1 1).fel = 1 ∧
    (iterSim cfgMixed 1 1).fel ≠ [] ∧
    1 ≤ (iterSim cfgMixed 1 1).arrival_times.2.length +
      (iterSim cfgMixed 1 1).arrival_times.1.length := by
  have h := c10_one_arrival_queued cfgMixed 1 1
  refine ⟨h.1, h.2.1, h.2.2 ?_⟩
  rw [mixed_iter1_cap1]
  decide

theorem getD_append_self (l : List ℚ) (x : ℚ) :
    (l ++ [x]).getD l.length 0 = x := by
  rw [List.getD_append_right _ _ _ _ le_rfl]
  simp

theorem inv2_init (cfg : Cfg) : Inv2 (initState cfg) := by
  refine ⟨⟨?_, ?_⟩, ⟨?_, ?_⟩⟩
  · intro E hE hk
    simp only [initState, List.mem_singleton] at hE
    subst hE
    exact absurd hk (by simp)
  · intro i hi
    simp [initState] at hi
  · intro E hE hk
    simp only [initState, List.mem_singleton] at hE
    subst hE
    exact absurd hk (by simp)
  · intro i hi
    simp [initState] at hi

theorem inv2_arrFp (cfg : Cfg) (s : SimState) (t : ℚ) (r : List Event)
    (hexp : ∀ n, 0 ≤ cfg.expSeq n)
    (h1 : Inv1 s) (h2 : Inv2 s)
    (hperm : s.fel.Perm (⟨0, t, EKind.arrival⟩ :: r))
    (hmin : ∀ x ∈ s.fel, Event.leB ⟨0, t, EKind.arrival⟩ x = true) :
    Inv2 (arrFpBranch cfg s t r) := by
  obtain ⟨hcls, harr, hs0, hs1⟩ := h1
  obtain ⟨hq0, hq0n, hcd0le, hcd0q, hes0⟩ := hs0
  obtain ⟨hK0, hM0⟩ := h2.1
  obtain ⟨hK1, hM1⟩ := h2.2
  have hrsub : ∀ x ∈ r, x ∈ s.fel := fun x hx =>
    hperm.symm.subset (List.mem_cons_of_mem _ hx)
  have hDr0 : countDep 0 s.fel = countDep 0 r := by
    have hh := countDep_perm hperm 0
    rw [countDep_cons] at hh
    simpa using hh
  have hdeple : s.departure_times.1.length ≤ s.arrival_times.1.length := by omega
  have htle : ∀ E ∈ s.fel, E.cls = 0 → t ≤ E.t := fun E hE hc =>
    leB_same_cls (hmin E hE) hc.symm
  unfold arrFpBranch
  dsimp only
  split_ifs with hq
  · -- serve case: the fastpass side was empty, a departure is pushed
    have harrdep : s.arrival_times.1.length = s.departure_times.1.length := by omega
    have hcd0r : countDep 0 r = 0 := by
      by_cases hone : countDep 0 s.fel = 1
      · have := hcd0q hone
        omega
      · omega
    have hnodep := countDep_eq_zero_no_dep hcd0r
    unfold Inv2 Inv2side
    dsimp only
    refine ⟨⟨?_, ?_⟩, ⟨?_, ?_⟩⟩
    · intro E hE hk hc i hge hlt
      simp only [List.append_assoc, List.mem_append, List.mem_cons,
        List.not_mem_nil, or_false] at hE
      rcases hE with hE | hE | hE
      · exact (hnodep E hE hk hc).elim
      · subst hE
        exact absurd hk (by simp)
      · subst hE
        dsimp only
        simp only [List.length_append, List.length_singleton] at hlt
        have hieq : i = s.departure_times.1.length := by omega
        subst hieq
        have hval : (s.arrival_times.1 ++ [t]).getD s.departure_times.1.length 0 = t := by
          rw [← harrdep]
          exact getD_append_self _ _
        rw [hval]
        have := hexp (s.eIdx + 1)
        linarith
    · intro i hi
      rw [List.getD_append _ _ _ _ (by omega)]
      exact hM0 i hi
    · intro E hE hk hc i hge hlt
      simp only [List.append_assoc, List.mem_append, List.mem_cons,
        List.not_mem_nil, or_false] at hE
      rcases hE with hE | hE | hE
      · exact hK1 E (hrsub E hE) hk hc i hge hlt
      · subst hE
        exact absurd hk (by simp)
      · subst hE
        exact absurd hc (by simp)
    · exact hM1
  · -- no-serve case: only the next arrival is pushed
    unfold Inv2 Inv2side
    dsimp only
    refine ⟨⟨?_, ?_⟩, ⟨?_, ?_⟩⟩
    · intro E hE hk hc i hge hlt
      simp only [List.mem_append, List.mem_cons, List.not_mem_nil, or_false] at hE
      rcases hE with hE | hE
      · simp only [List.length_append, List.length_singleton] at hlt
        by_cases hi : i < s.arrival_times.1.length
        · rw [List.getD_append _ _ _ _ hi]
          exact hK0 E (hrsub E hE) hk hc i hge hi
        · have hieq : i = s.arrival_times.1.length := by omega
          subst hieq
          rw [getD_append_self]
          exact htle E (hrsub E hE) hc
      · subst hE
        exact absurd hk (by simp)
    · intro i hi
      rw [List.getD_append _ _ _ _ (by omega)]
      exact hM0 i hi
    · intro E hE hk hc i hge hlt
      simp only [List.mem_append, List.mem_cons, List.not_mem_nil, or_false] at hE
      rcases hE with hE | hE
      · exact hK1 E (hrsub E hE) hk hc i hge hlt
      · subst hE
        exact absurd hk (by simp)
    · exact hM1

theorem inv2_arrReg (cfg : Cfg) (s : SimState) (t : ℚ) (r : List Event)
    (hexp : ∀ n, 0 ≤ cfg.expSeq n)
    (h1 : Inv1 s) (h2 : Inv2 s)
    (hperm : s.fel.Perm (⟨1, t, EKind.arrival⟩ :: r))
    (hmin : ∀ x ∈ s.fel, Event.leB ⟨1, t, EKind.arrival⟩ x = true) :
    Inv2 (arrRegBranch cfg s t r) := by
  obtain ⟨hcls, harr, hs0, hs1⟩ := h1
  obtain ⟨hq1, hq1n, hcd1le, hcd1q, hes1⟩ := hs1
  obtain ⟨hK0, hM0⟩ := h2.1
  obtain ⟨hK1, hM1⟩ := h2.2
  have hrsub : ∀ x ∈ r, x ∈ s.fel := fun x hx =>
    hperm.symm.subset (List.mem_cons_of_mem _ hx)
  have hDr1 : countDep 1 s.fel = countDep 1 r := by
    have hh := countDep_perm hperm 1
    rw [countDep_cons] at hh
    simpa using hh
  have hdeple : s.departure_times.2.length ≤ s.arrival_times.2.length := by omega
  have htle : ∀ E ∈ s.fel, E.cls = 1 → t ≤ E.t := fun E hE hc =>
    leB_same_cls (hmin E hE) hc.symm
  unfold arrRegBranch
  dsimp only
  split_ifs with hq
  · -- serve case: the regular side was empty and no fastpass is present
    obtain ⟨hq1eq, hq0eq⟩ := hq
    have harrdep : s.arrival_times.2.length = s.departure_times.2.length := by omega
    have hcd1r : countDep 1 r = 0 := by
      by_cases hone : countDep 1 s.fel = 1
      · have := hcd1q hone
        omega
      · omega
    have hnodep := countDep_eq_zero_no_dep hcd1r
    unfold Inv2 Inv2side
    dsimp only
    refine ⟨⟨?_, ?_⟩, ⟨?_, ?_⟩⟩
    · intro E hE hk hc i hge hlt
      simp only [List.append_assoc, List.mem_append, List.mem_cons,
        List.not_mem_nil, or_false] at hE
      rcases hE with hE | hE | hE
      · exact hK0 E (hrsub E hE) hk hc i hge hlt
      · subst hE
        exact absurd hk (by simp)
      · subst hE
        exact absurd hc (by simp)
    · exact hM0
    · intro E hE hk hc i hge hlt
      simp only [List.append_assoc, List.mem_append, List.mem_cons,
        List.not_mem_nil, or_false] at hE
      rcases hE with hE | hE | hE
      · exact (hnodep E hE hk hc).elim
      · subst hE
        exact absurd hk (by simp)
      · subst hE
        dsimp only
        simp only [List.length_append, List.length_singleton] at hlt
        have hieq : i = s.departure_times.2.length := by omega
        subst hieq
        have hval : (s.arrival_times.2 ++ [t]).getD s.departure_times.2.length 0 = t := by
          rw [← harrdep]
          exact getD_append_self _ _
        rw [hval]
        have := hexp (s.eIdx + 1)
        linarith
    · intro i hi
      rw [List.getD_append _ _ _ _ (by omega)]
      exact hM1 i hi
  · -- no-serve case: the regular customer waits
    unfold Inv2 Inv2side
    dsimp only
    refine ⟨⟨?_, ?_⟩, ⟨?_, ?_⟩⟩
    · intro E hE hk hc i hge hlt
      simp only [List.mem_append, List.mem_cons, List.not_mem_nil, or_false] at hE
      rcases hE with hE | hE
      · exact hK0 E (hrsub E hE) hk hc i hge hlt
      · subst hE
        exact absurd hk (by simp)
    · exact hM0
    · intro E hE hk hc i hge hlt
      simp only [List.mem_append, List.mem_cons, List.not_mem_nil, or_false] at hE
      rcases hE with hE | hE
      · simp only [List.length_append, List.length_singleton] at hlt
        by_cases hi : i < s.arrival_times.2.length
        · rw [List.getD_append _ _ _ _ hi]
          exact hK1 E (hrsub E hE) hk hc i hge hi
        · have hieq : i = s.arrival_times.2.length := by omega
          subst hieq
          rw [getD_append_self]
          exact htle E (hrsub E hE) hc
      · subst hE
        exact absurd hk (by simp)
    · intro i hi
      rw [List.getD_append _ _ _ _ (by omega)]
      exact hM1 i hi

theorem inv2_depFp (cfg : Cfg) (s : SimState) (t : ℚ) (r : List Event)
    (hexp : ∀ n, 0 ≤ cfg.expSeq n)
    (h1 : Inv1 s) (h2 : Inv2 s)
    (hperm : s.fel.Perm (⟨0, t, EKind.departure⟩ :: r)) :
    Inv2 (depFpBranch cfg s t r) := by
  obtain ⟨hcls, harr, hs0, hs1⟩ := h1
  obtain ⟨hq0, hq0n, hcd0le, hcd0q, hes0⟩ := hs0
  obtain ⟨hK0, hM0⟩ := h2.1
  obtain ⟨hK1, hM1⟩ := h2.2
  have hrsub : ∀ x ∈ r, x ∈ s.fel := fun x hx =>
    hperm.symm.subset (List.mem_cons_of_mem _ hx)
  have hDr0 : countDep 0 s.fel = 1 + countDep 0 r := by
    have hh := countDep_perm hperm 0
    rw [countDep_cons] at hh
    simpa using hh
  have hcd0r : countDep 0 r = 0 := by omega
  have hnodep := countDep_eq_zero_no_dep hcd0r
  have hq0ge : 1 ≤ s.num_in_queue.1 := hcd0q (by omega)
  have hdeplt : s.departure_times.1.length < s.arrival_times.1.length := by omega
  have hE0mem : (⟨0, t, EKind.departure⟩ : Event) ∈ s.fel :=
    hperm.symm.subset (List.mem_cons_self _ _)
  have hK0E0 := hK0 _ hE0mem rfl rfl
  unfold depFpBranch
  dsimp only
  split_ifs with hq
  · -- a waiting fastpass customer enters service
    unfold Inv2 Inv2side
    dsimp only
    refine ⟨⟨?_, ?_⟩, ⟨?_, ?_⟩⟩
    · intro E hE hk hc i hge hlt
      simp only [List.length_append, List.length_singleton] at hge
      simp only [List.mem_append, List.mem_cons, List.not_mem_nil, or_false] at hE
      rcases hE with hE | hE
      · exact (hnodep E hE hk hc).elim
      · subst hE
        dsimp only
        have h1le := hK0E0 i (by omega) hlt
        have := hexp s.eIdx
        linarith
    · intro i hi
      simp only [List.length_append, List.length_singleton] at hi
      by_cases hlt : i < s.departure_times.1.length
      · rw [List.getD_append _ _ _ _ hlt]
        exact hM0 i hlt
      · have hieq : i = s.departure_times.1.length := by omega
        subst hieq
        rw [getD_append_self]
        exact hK0E0 _ le_rfl hdeplt
    · intro E hE hk hc i hge hlt
      simp only [List.mem_append, List.mem_cons, List.not_mem_nil, or_false] at hE
      rcases hE with hE | hE
      · exact hK1 E (hrsub E hE) hk hc i hge hlt
      · subst hE
        exact absurd hc (by simp)
    · exact hM1
  · -- no fastpass customer remains waiting
    unfold Inv2 Inv2side
    dsimp only
    refine ⟨⟨?_, ?_⟩, ⟨?_, ?_⟩⟩
    · intro E hE hk hc i hge hlt
      exact (hnodep E hE hk hc).elim
    · intro i hi
      simp only [List.length_append, List.length_singleton] at hi
      by_cases hlt : i < s.departure_times.1.length
      · rw [List.getD_append _ _ _ _ hlt]
        exact hM0 i hlt
      · have hieq : i = s.departure_times.1.length := by omega
        subst hieq
        rw [getD_append_self]
        exact hK0E0 _ le_rfl hdeplt
    · intro E hE hk hc i hge hlt
      exact hK1 E (hrsub E hE) hk hc i hge hlt
    · exact hM1

theorem inv2_depReg (cfg : Cfg) (s : SimState) (t : ℚ) (r : List Event)
    (hexp : ∀ n, 0 ≤ cfg.expSeq n)
    (h1 : Inv1 s) (h2 : Inv2 s)
    (hperm : s.fel.Perm (⟨1, t, EKind.departure⟩ :: r)) :
    Inv2 (depRegBranch cfg s t r) := by
  obtain ⟨hcls, harr, hs0, hs1⟩ := h1
  obtain ⟨hq1, hq1n, hcd1le, hcd1q, hes1⟩ := hs1
  obtain ⟨hK0, hM0⟩ := h2.1
  obtain ⟨hK1, hM1⟩ := h2.2
  have hrsub : ∀ x ∈ r, x ∈ s.fel := fun x hx =>
    hperm.symm.subset (List.mem_cons_of_mem _ hx)
  have hDr1 : countDep 1 s.fel = 1 + countDep 1 r := by
    have hh := countDep_perm hperm 1
    rw [countDep_cons] at hh
    simpa using hh
  have hcd1r : countDep 1 r = 0 := by omega
  have hnodep := countDep_eq_zero_no_dep hcd1r
  have hq1ge : 1 ≤ s.num_in_queue.2 := hcd1q (by omega)
  have hdeplt : s.departure_times.2.length < s.arrival_times.2.length := by omega
  have hE0mem : (⟨1, t, EKind.departure⟩ : Event) ∈ s.fel :=
    hperm.symm.subset (List.mem_cons_self _ _)
  have hK1E0 := hK1 _ hE0mem rfl rfl
  unfold depRegBranch
  dsimp only
  split_ifs with hq
  · -- a waiting regular customer enters service
    unfold Inv2 Inv2side
    dsimp only
    refine ⟨⟨?_, ?_⟩, ⟨?_, ?_⟩⟩
    · intro E hE hk hc i hge hlt
      simp only [List.mem_append, List.mem_cons, List.not_mem_nil, or_false] at hE
      rcases hE with hE | hE
      · exact hK0 E (hrsub E hE) hk hc i hge hlt
      · subst hE
        exact absurd hc (by simp)
    · exact hM0
    · intro E hE hk hc i hge hlt
      simp only [List.length_append, List.length_singleton] at hge
      simp only [List.mem_append, List.mem_cons, List.not_mem_nil, or_false] at hE
      rcases hE with hE | hE
      · exact (hnodep E hE hk hc).elim
      · subst hE
        dsimp only
        have h1le := hK1E0 i (by omega) hlt
        have := hexp s.eIdx
        linarith
    · intro i hi
      simp only [List.length_append, List.length_singleton] at hi
      by_cases hlt : i < s.departure_times.2.length
      · rw [List.getD_append _ _ _ _ hlt]
        exact hM1 i hlt
      · have hieq : i = s.departure_times.2.length := by omega
        subst hieq
        rw [getD_append_self]
        exact hK1E0 _ le_rfl hdeplt
  · -- no regular customer remains waiting
    unfold Inv2 Inv2side
    dsimp only
    refine ⟨⟨?_, ?_⟩, ⟨?_, ?_⟩⟩
    · intro E hE hk hc i hge hlt
      exact hK0 E (hrsub E hE) hk hc i hge hlt
    · exact hM0
    · intro E hE hk hc i hge hlt
      exact (hnodep E hE hk hc).elim
    · intro i hi
      simp only [List.length_append, List.length_singleton] at hi
      by_cases hlt : i < s.departure_times.2.length
      · rw [List.getD_append _ _ _ _ hlt]
        exact hM1 i hlt
      · have hieq : i = s.departure_times.2.length := by omega
        subst hieq
        rw [getD_append_self]
        exact hK1E0 _ le_rfl hdeplt

theorem inv2_stepIf (cfg : Cfg) (cap : ℕ) {s : SimState}
    (hexp : ∀ n, 0 ≤ cfg.expSeq n) (h1 : Inv1 s) (h2 : Inv2 s) :
    Inv2 (stepIf cfg cap s) := by
  by_cases hc : loopCond cap s
  · obtain ⟨e, r, hpop⟩ := popMin_of_ne_nil hc.1
    rw [stepIf_eq_dispatch hc hpop]
    have hperm := popMin_perm hpop
    have hmin := popMin_min hpop
    have hecls := h1.1 e (popMin_mem hpop)
    obtain ⟨cls, te, kind⟩ := e
    dsimp only at hecls
    cases kind with
    | arrival =>
      rcases hecls with h0 | h0
      · subst h0
        rw [dispatch_arrFp]
        exact inv2_arrFp cfg s te r hexp h1 h2 hperm hmin
      · subst h0
        rw [dispatch_arrReg]
        exact inv2_arrReg cfg s te r hexp h1 h2 hperm hmin
    | departure =>
      rcases hecls with h0 | h0
      · subst h0
        rw [dispatch_depFp]
        exact inv2_depFp cfg s te r hexp h1 h2 hperm
      · subst h0
        rw [dispatch_depReg]
        exact inv2_depReg cfg s te r hexp h1 h2 hperm
  · rw [stepIf_of_not_cond hc]
    exact h2

/-- Every state reached by the event loop satisfies the timing
invariant, provided every exponential draw is non-negative (as the
source's `rand_exp` outcomes are). -/
theorem inv2_iterSim (cfg : Cfg) (cap k : ℕ) (hexp : ∀ n, 0 ≤ cfg.expSeq n) :
    Inv2 (iterSim cfg cap k) := by
  induction k with
  | zero => exact inv2_init cfg
  | succ n ih =>
    rw [iterSim_succ]
    exact inv2_stepIf cfg cap hexp (inv1_iterSim cfg cap n) ih

theorem arrFpBranch_fel_sub {cfg : Cfg} {s : SimState} {t : ℚ} {r : List Event} :
    ∀ x ∈ (arrFpBranch cfg s t r).fel,
      x ∈ r ∨ x = ⟨classDraw cfg s.uIdx, t + cfg.expSeq s.eIdx, EKind.arrival⟩ ∨
        x = ⟨0, t + cfg.expSeq (s.eIdx + 1), EKind.departure⟩ := by
  intro x hx
  unfold arrFpBranch at hx
  dsimp only at hx
  split_ifs at hx
  · simp only [List.append_assoc, List.mem_append, List.mem_cons, List.not_mem_nil,
      or_false] at hx
    tauto
  · simp only [List.mem_append, List.mem_cons, List.not_mem_nil, or_false] at hx
    tauto

theorem arrRegBranch_fel_sub {cfg : Cfg} {s : SimState} {t : ℚ} {r : List Event} :
    ∀ x ∈ (arrRegBranch cfg s t r).fel,
      x ∈ r ∨ x = ⟨classDraw cfg s.uIdx, t + cfg.expSeq s.eIdx, EKind.arrival⟩ ∨
        x = ⟨1, t + cfg.expSeq (s.eIdx + 1), EKind.departure⟩ := by
  intro x hx
  unfold arrRegBranch at hx
  dsimp only at hx
  split_ifs at hx
  · simp only [List.append_assoc, List.mem_append, List.mem_cons, List.not_mem_nil,
      or_false] at hx
    tauto
  · simp only [List.mem_append, List.mem_cons, List.not_mem_nil, or_false] at hx
    tauto

theorem depFpBranch_fel_sub {cfg : Cfg} {s : SimState} {t : ℚ} {r : List Event} :
    ∀ x ∈ (depFpBranch cfg s t r).fel,
      x ∈ r ∨ x = ⟨0, t + cfg.expSeq s.eIdx, EKind.departure⟩ := by
  intro x hx
  unfold depFpBranch at hx
  dsimp only at hx
  split_ifs at hx
  · simp only [List.mem_append, List.mem_cons, List.not_mem_nil, or_false] at hx
    tauto
  · exact Or.inl hx

theorem depRegBranch_fel_sub {cfg : Cfg} {s : SimState} {t : ℚ} {r : List Event} :
    ∀ x ∈ (depRegBranch cfg s t r).fel,
      x ∈ r ∨ x = ⟨1, t + cfg.expSeq s.eIdx, EKind.departure⟩ := by
  intro x hx
  unfold depRegBranch at hx
  dsimp only at hx
  split_ifs at hx
  · simp only [List.mem_append, List.mem_cons, List.not_mem_nil, or_false] at hx
    tauto
  · exact Or.inl hx

theorem arrFpBranch_time (cfg : Cfg) (s : SimState) (t : ℚ) (r : List Event) :
    (arrFpBranch cfg s t r).time = t := by
  unfold arrFpBranch
  dsimp only
  split_ifs <;> rfl

theorem arrRegBranch_time (cfg : Cfg) (s : SimState) (t : ℚ) (r : List Event) :
    (arrRegBranch cfg s t r).time = t := by
  unfold arrRegBranch
  dsimp only
  split_ifs <;> rfl

theorem depFpBranch_time (cfg : Cfg) (s : SimState) (t : ℚ) (r : List Event) :
    (depFpBranch cfg s t r).time = t := by
  unfold depFpBranch
  dsimp only
  split_ifs <;> rfl

theorem depRegBranch_time (cfg : Cfg) (s : SimState) (t : ℚ) (r : List Event) :
    (depRegBranch cfg s t r).time = t := by
  unfold depRegBranch
  dsimp only
  split_ifs <;> rfl

theorem invMono_init (cfg : Cfg) (c : Nat) (hdraw : ∀ n, classDraw cfg n = c)
    (hexp : ∀ n, 0 ≤ cfg.expSeq n) : InvMono c (initState cfg) := by
  refine ⟨?_, ?_⟩
  · intro E hE
    simp only [initState, List.mem_singleton] at hE
    subst hE
    exact hdraw 0
  · intro E hE
    simp only [initState, List.mem_singleton] at hE
    subst hE
    dsimp only [initState]
    have := hexp 0
    linarith

theorem invMono_stepIf (cfg : Cfg) (cap : ℕ) (c : Nat) (hc01 : c = 0 ∨ c = 1)
    (hdraw : ∀ n, classDraw cfg n = c) (hexp : ∀ n, 0 ≤ cfg.expSeq n)
    {s : SimState} (h : InvMono c s) :
    InvMono c (stepIf cfg cap s) ∧ s.time ≤ (stepIf cfg cap s).time := by
  by_cases hcond : loopCond cap s
  · obtain ⟨e, r, hpop⟩ := popMin_of_ne_nil hcond.1
    rw [stepIf_eq_dispatch hcond hpop]
    have hperm := popMin_perm hpop
    have hmin := popMin_min hpop
    have hrsub : ∀ x ∈ r, x ∈ s.fel := fun x hx =>
      hperm.symm.subset (List.mem_cons_of_mem _ hx)
    have hecls := h.1 e (popMin_mem hpop)
    have htime := h.2 e (popMin_mem hpop)
    have htr : ∀ x ∈ r, e.t ≤ x.t := fun x hx =>
      leB_same_cls (hmin x (hrsub x hx)) (by rw [hecls, h.1 x (hrsub x hx)])
    obtain ⟨cls, te, kind⟩ := e
    dsimp only at hecls htime htr
    subst hecls
    rcases hc01 with rfl | rfl
    · cases kind with
      | arrival =>
        rw [dispatch_arrFp]
        refine ⟨⟨?_, ?_⟩, ?_⟩
        · intro x hx
          rcases arrFpBranch_fel_sub x hx with hx | hx | hx
          · exact h.1 x (hrsub x hx)
          · subst hx; exact hdraw _
          · subst hx; rfl
        · rw [arrFpBranch_time]
          intro x hx
          rcases arrFpBranch_fel_sub x hx with hx | hx | hx
          · exact htr x hx
          · subst hx
            dsimp only
            have := hexp s.eIdx
            linarith
          · subst hx
            dsimp only
            have := hexp (s.eIdx + 1)
            linarith
        · rw [arrFpBranch_time]
          exact htime
      | departure =>
        rw [dispatch_depFp]
        refine ⟨⟨?_, ?_⟩, ?_⟩
        · intro x hx
          rcases depFpBranch_fel_sub x hx with hx | hx
          · exact h.1 x (hrsub x hx)
          · subst hx; rfl
        · rw [depFpBranch_time]
          intro x hx
          rcases depFpBranch_fel_sub x hx with hx | hx
          · exact htr x hx
          · subst hx
            dsimp only
            have := hexp s.eIdx
            linarith
        · rw [depFpBranch_time]
          exact htime
    · cases kind with
      | arrival =>
        rw [dispatch_arrReg]
        refine ⟨⟨?_, ?_⟩, ?_⟩
        · intro x hx
          rcases arrRegBranch_fel_sub x hx with hx | hx | hx
          · exact h.1 x (hrsub x hx)
          · subst hx; exact hdraw _
          · subst hx; rfl
        · rw [arrRegBranch_time]
          intro x hx
          rcases arrRegBranch_fel_sub x hx with hx | hx | hx
          · exact htr x hx
          · subst hx
            dsimp only
            have := hexp s.eIdx
            linarith
          · subst hx
            dsimp only
            have := hexp (s.eIdx + 1)
            linarith
        · rw [arrRegBranch_time]
          exact htime
      | departure =>
        rw [dispatch_depReg]
        refine ⟨⟨?_, ?_⟩, ?_⟩
        · intro x hx
          rcases depRegBranch_fel_sub x hx with hx | hx
          · exact h.1 x (hrsub x hx)
          · subst hx; rfl
        · rw [depRegBranch_time]
          intro x hx
          rcases depRegBranch_fel_sub x hx with hx | hx
          · exact htr x hx
          · subst hx
            dsimp only
            have := hexp s.eIdx
            linarith
        · rw [depRegBranch_time]
          exact htime
  · rw [stepIf_of_not_cond hcond]
    exact ⟨h, le_refl _⟩

theorem invMono_iterSim (cfg : Cfg) (cap k : ℕ) (c : Nat) (hc01 : c = 0 ∨ c = 1)
    (hdraw : ∀ n, classDraw cfg n = c) (hexp : ∀ n, 0 ≤ cfg.expSeq n) :
    InvMono c (iterSim cfg cap k) := by
  induction k with
  | zero => exact invMono_init cfg c hdraw hexp
  | succ n ih =>
    rw [iterSim_succ]
    exact (invMono_stepIf cfg cap c hc01 hdraw hexp ih).1

/-- C1, amended: in every run whose class draws all yield the same class
`c` (as happens for `fp_frac = 0` or `fp_frac = 1`), with non-negative
exponential draws, the sequence of clock values is non-decreasing over
the whole event loop; in mixed-class runs the clock can decrease because
the queue orders events by class before scheduled time
(see the counterexample). -/
theorem c1_amended_clock_monotone_single_class (cfg : Cfg) (cap k : ℕ) (c : Nat)
    (hc01 : c = 0 ∨ c = 1) (hdraw : ∀ n, classDraw cfg n = c)
    (hexp : ∀ n, 0 ≤ cfg.expSeq n) :
    (iterSim cfg cap k).time ≤ (iterSim cfg cap (k + 1)).time := by
  rw [iterSim_succ]
  exact (invMono_stepIf cfg cap c hc01 hdraw hexp
    (invMono_iterSim cfg cap k c hc01 hdraw hexp)).2

/-- C1, amended, witness: in the all-regular run `cfgAllReg` the clock
after one iteration is no later than the clock after two iterations. -/
theorem c1_amended_clock_monotone_witness :
    (iterSim cfgAllReg 50000 1).time ≤ (iterSim cfgAllReg 50000 2).time :=
  c1_amended_clock_monotone_single_class cfgAllReg 50000 1 1 (Or.inr rfl)
    (fun n => by norm_num [classDraw, is_fp, cfgAllReg])
    (fun n => by dsimp [cfgAllReg]; split_ifs <;> norm_num)

theorem cls_stepIf (cfg : Cfg) (cap : ℕ) (c : Nat) (hc01 : c = 0 ∨ c = 1)
    (hdraw : ∀ n, classDraw cfg n = c) {s : SimState}
    (h : ∀ E ∈ s.fel, E.cls = c) : ∀ E ∈ (stepIf cfg cap s).fel, E.cls = c := by
  by_cases hcond : loopCond cap s
  · obtain ⟨e, r, hpop⟩ := popMin_of_ne_nil hcond.1
    rw [stepIf_eq_dispatch hcond hpop]
    have hperm := popMin_perm hpop
    have hrsub : ∀ x ∈ r, x ∈ s.fel := fun x hx =>
      hperm.symm.subset (List.mem_cons_of_mem _ hx)
    have hecls := h e (popMin_mem hpop)
    obtain ⟨cls, te, kind⟩ := e
    dsimp only at hecls
    subst hecls
    rcases hc01 with rfl | rfl
    · cases kind with
      | arrival =>
        rw [dispatch_arrFp]
        intro x hx
        rcases arrFpBranch_fel_sub x hx with hx | hx | hx
        · exact h x (hrsub x hx)
        · subst hx; exact hdraw _
        · subst hx; rfl
      | departure =>
        rw [dispatch_depFp]
        intro x hx
        rcases depFpBranch_fel_sub x hx with hx | hx
        · exact h x (hrsub x hx)
        · subst hx; rfl
    · cases kind with
      | arrival =>
        rw [dispatch_arrReg]
        intro x hx
        rcases arrRegBranch_fel_sub x hx with hx | hx | hx
        · exact h x (hrsub x hx)
        · subst hx; exact hdraw _
        · subst hx; rfl
      | departure =>
        rw [dispatch_depReg]
        intro x hx
        rcases depRegBranch_fel_sub x hx with hx | hx
        · exact h x (hrsub x hx)
        · subst hx; rfl
  · rw [stepIf_of_not_cond hcond]
    exact h

theorem cls_iterSim (cfg : Cfg) (cap k : ℕ) (c : Nat) (hc01 : c = 0 ∨ c = 1)
    (hdraw : ∀ n, classDraw cfg n = c) :
    ∀ E ∈ (iterSim cfg cap k).fel, E.cls = c := by
  induction k with
  | zero =>
    intro E hE
    simp only [iterSim_zero, initState, List.mem_singleton] at hE
    subst hE
    exact hdraw 0
  | succ n ih =>
    rw [iterSim_succ]
    exact cls_stepIf cfg cap c hc01 hdraw ih

theorem regSide_unchanged_of_fp (cfg : Cfg) (cap : ℕ) {s : SimState}
    (h : ∀ E ∈ s.fel, E.cls = 0) :
    (stepIf cfg cap s).arrival_times.2 = s.arrival_times.2 ∧
    (stepIf cfg cap s).enter_service_times.2 = s.enter_service_times.2 ∧
    (stepIf cfg cap s).departure_times.2 = s.departure_times.2 := by
  by_cases hcond : loopCond cap s
  · obtain ⟨e, r, hpop⟩ := popMin_of_ne_nil hcond.1
    rw [stepIf_eq_dispatch hcond hpop]
    have hecls := h e (popMin_mem hpop)
    obtain ⟨cls, te, kind⟩ := e
    dsimp only at hecls
    subst hecls
    cases kind with
    | arrival =>
      rw [dispatch_arrFp]
      unfold arrFpBranch
      dsimp only
      split_ifs <;> exact ⟨rfl, rfl, rfl⟩
    | departure =>
      rw [dispatch_depFp]
      unfold depFpBranch
      dsimp only
      split_ifs <;> exact ⟨rfl, rfl, rfl⟩
  · rw [stepIf_of_not_cond hcond]
    exact ⟨rfl, rfl, rfl⟩

theorem fpSide_unchanged_of_reg (cfg : Cfg) (cap : ℕ) {s : SimState}
    (h : ∀ E ∈ s.fel, E.cls = 1) :
    (stepIf cfg cap s).arrival_times.1 = s.arrival_times.1 ∧
    (stepIf cfg cap s).enter_service_times.1 = s.enter_service_times.1 ∧
    (stepIf cfg cap s).departure_times.1 = s.departure_times.1 := by
  by_cases hcond : loopCond cap s
  · obtain ⟨e, r, hpop⟩ := popMin_of_ne_nil hcond.1
    rw [stepIf_eq_dispatch hcond hpop]
    have hecls := h e (popMin_mem hpop)
    obtain ⟨cls, te, kind⟩ := e
    dsimp only at hecls
    subst hecls
    cases kind with
    | arrival =>
      rw [dispatch_arrReg]
      unfold arrRegBranch
      dsimp only
      split_ifs <;> exact ⟨rfl, rfl, rfl⟩
    | departure =>
      rw [dispatch_depReg]
      unfold depRegBranch
      dsimp only
      split_ifs <;> exact ⟨rfl, rfl, rfl⟩
  · rw [stepIf_of_not_cond hcond]
    exact ⟨rfl, rfl, rfl⟩

theorem regLogs_empty (cfg : Cfg) (cap k : ℕ) (hdraw : ∀ n, classDraw cfg n = 0) :
    (iterSim cfg cap k).arrival_times.2 = [] ∧
    (iterSim cfg cap k).enter_service_times.2 = [] ∧
    (iterSim cfg cap k).departure_times.2 = [] := by
  induction k with
  | zero => exact ⟨rfl, rfl, rfl⟩
  | succ n ih =>
    have hcl := cls_iterSim cfg cap n 0 (Or.inl rfl) hdraw
    obtain ⟨h1, h2, h3⟩ := regSide_unchanged_of_fp cfg cap hcl
    rw [iterSim_succ]
    exact ⟨h1.trans ih.1, h2.trans ih.2.1, h3.trans ih.2.2⟩

theorem fpLogs_empty (cfg : Cfg) (cap k : ℕ) (hdraw : ∀ n, classDraw cfg n = 1) :
    (iterSim cfg cap k).arrival_times.1 = [] ∧
    (iterSim cfg cap k).enter_service_times.1 = [] ∧
    (iterSim cfg cap k).departure_times.1 = [] := by
  induction k with
  | zero => exact ⟨rfl, rfl, rfl⟩
  | succ n ih =>
    have hcl := cls_iterSim cfg cap n 1 (Or.inr rfl) hdraw
    obtain ⟨h1, h2, h3⟩ := fpSide_unchanged_of_reg cfg cap hcl
    rw [iterSim_succ]
    exact ⟨h1.trans ih.1, h2.trans ih.2.1, h3.trans ih.2.2⟩

theorem stats_none_of_reg_empty (f : ℚ) {s : SimState}
    (ha : s.arrival_times.2 = []) (hd : s.departure_times.2 = []) :
    stats f s = none := by
  unfold stats residenceTimes avgList
  rw [ha, hd]
  simp

/-- C2: in every run with `fp_frac = 1` (all uniform draws lie in
[0, 1), so every customer is a fastpass), the Regular arrival,
enter-service and departure logs are empty at every iteration boundary,
and the statistics extraction faults (`none`, the `ZeroDivisionError` of
`sum([])/len([])` at line 201) instead of resolving to a guarded
sentinel: the `fp_frac == 0` guard of line 204 has no symmetric
counterpart for the Regular average. -/
theorem c2_fp_frac_one_regular_empty_stats_fault (cfg : Cfg) (cap k : ℕ)
    (hfrac : cfg.fp_frac = 1) (hu : ∀ n, cfg.uSeq n < 1) :
    (iterSim cfg cap k).arrival_times.2 = [] ∧
    (iterSim cfg cap k).enter_service_times.2 = [] ∧
    (iterSim cfg cap k).departure_times.2 = [] ∧
    stats cfg.fp_frac (iterSim cfg cap k) = none := by
  have hdraw : ∀ n, classDraw cfg n = 0 := by
    intro n
    unfold classDraw is_fp
    rw [hfrac]
    exact if_pos (hu n)
  obtain ⟨h1, h2, h3⟩ := regLogs_empty cfg cap k hdraw
  exact ⟨h1, h2, h3, stats_none_of_reg_empty _ h1 h3⟩

/-- C2, witness: the all-fastpass run `cfgAllFp` (`fp_frac = 1`) after
three iterations has empty Regular logs and faulting statistics. -/
theorem c2_fp_frac_one_witness :
    (iterSim cfgAllFp 50000 3).arrival_times.2 = [] ∧
    (iterSim cfgAllFp 50000 3).enter_service_times.2 = [] ∧
    (iterSim cfgAllFp 50000 3).departure_times.2 = [] ∧
    stats cfgAllFp.fp_frac (iterSim cfgAllFp 50000 3) = none :=
  c2_fp_frac_one_regular_empty_stats_fault cfgAllFp 50000 3 rfl
    (fun n => by norm_num [cfgAllFp])

/-- C4: in every run with `fp_frac = 0` (all uniform draws non-negative,
so every customer is regular), the Priority logs stay empty and the
statistics take the guarded branch of lines 204–206: whenever a pair is
returned, its Priority component is the sentinel 0 and its Regular
component is the plain average of the Regular residence times — no
division by the empty Priority sample count is ever attempted. -/
theorem c4_fp_frac_zero_priority_sentinel (cfg : Cfg) (cap k : ℕ)
    (hfrac : cfg.fp_frac = 0) (hu : ∀ n, 0 ≤ cfg.uSeq n) :
    (iterSim cfg cap k).arrival_times.1 = [] ∧
    (iterSim cfg cap k).enter_service_times.1 = [] ∧
    (iterSim cfg cap k).departure_times.1 = [] ∧
    stats cfg.fp_frac (iterSim cfg cap k) =
      Option.map (fun a => (a, (0 : ℚ)))
        (avgList (List.zipWith (fun d a => d - a)
          (iterSim cfg cap k).departure_times.2
          (iterSim cfg cap k).arrival_times.2)) := by
  have hdraw : ∀ n, classDraw cfg n = 1 := by
    intro n
    unfold classDraw is_fp
    rw [hfrac]
    rw [if_neg (by have := hu n; linarith)]
  obtain ⟨h1, h2, h3⟩ := fpLogs_empty cfg cap k hdraw
  refine ⟨h1, h2, h3, ?_⟩
  obtain ⟨_, _, _, hs1⟩ := inv1_iterSim cfg cap k
  obtain ⟨hq1, hq1n, _, _, _⟩ := hs1
  have hlen : (iterSim cfg cap k).departure_times.2.length ≤
      (iterSim cfg cap k).arrival_times.2.length := by omega
  rw [hfrac]
  unfold stats
  have hres : residenceTimes (iterSim cfg cap k).departure_times.2
      (iterSim cfg cap k).arrival_times.2 =
      some (List.zipWith (fun d a => d - a)
        (iterSim cfg cap k).departure_times.2
        (iterSim cfg cap k).arrival_times.2) := by
    unfold residenceTimes
    rw [if_pos hlen]
  rw [hres]
  cases havg : avgList (List.zipWith (fun d a => d - a)
      (iterSim cfg cap k).departure_times.2
      (iterSim cfg cap k).arrival_times.2) with
  | none => simp [havg]
  | some a => simp [havg]

/-- C4, witness: the all-regular run `cfgAllReg` (`fp_frac = 0`) after
two iterations has empty Priority logs, and its statistics are the
Regular average paired with the Priority sentinel 0. -/
theorem c4_fp_frac_zero_witness :
    (iterSim cfgAllReg 50000 2).arrival_times.1 = [] ∧
    (iterSim cfgAllReg 50000 2).enter_service_times.1 = [] ∧
    (iterSim cfgAllReg 50000 2).departure_times.1 = [] ∧
    stats cfgAllReg.fp_frac (iterSim cfgAllReg 50000 2) =
      Option.map (fun a => (a, (0 : ℚ)))
        (avgList (List.zipWith (fun d a => d - a)
          (iterSim cfgAllReg 50000 2).departure_times.2
          (iterSim cfgAllReg 50000 2).arrival_times.2)) :=
  c4_fp_frac_zero_priority_sentinel cfgAllReg 50000 2 rfl
    (fun n => by norm_num [cfgAllReg])

/-- C5: service-start rules at an Arrival pop.  A Regular arrival
(class 1) begins service at its arrival instant — its enter-service log
grows and a Regular departure is scheduled — exactly when the Regular
counter becomes 1 AND the Priority counter is 0; otherwise its
enter-service log is unchanged.  A Priority arrival (class 0) whose
counter becomes 1 always begins service immediately, with no condition
on the Regular side, and leaves the whole Regular side (logs, counter,
and any queued Regular departure, which stays in the remainder `r` of
the queue) untouched — the in-progress Regular service is not
interrupted and the momentary logical overlap is preserved. -/
theorem c5_service_start_rules (cfg : Cfg) (s : SimState) (e : Event) (r : List Event)
    (hpop : popMin s.fel = some (e, r)) (hk : e.kind = EKind.arrival) :
    (e.cls = 1 →
      ((s.num_in_queue.2 + 1 = 1 ∧ s.num_in_queue.1 = 0 →
          (stepBody cfg s).enter_service_times.2 = s.enter_service_times.2 ++ [e.t] ∧
          (stepBody cfg s).fel =
            (r ++ [⟨classDraw cfg s.uIdx, e.t + cfg.expSeq s.eIdx, EKind.arrival⟩]) ++
              [⟨1, e.t + cfg.expSeq (s.eIdx + 1), EKind.departure⟩]) ∧
        (¬(s.num_in_queue.2 + 1 = 1 ∧ s.num_in_queue.1 = 0) →
          (stepBody cfg s).enter_service_times.2 = s.enter_service_times.2 ∧
          (stepBody cfg s).fel =
            r ++ [⟨classDraw cfg s.uIdx, e.t + cfg.expSeq s.eIdx, EKind.arrival⟩]))) ∧
    (e.cls = 0 →
      ((s.num_in_queue.1 + 1 = 1 →
          (stepBody cfg s).enter_service_times.1 = s.enter_service_times.1 ++ [e.t] ∧
          (stepBody cfg s).fel =
            (r ++ [⟨classDraw cfg s.uIdx, e.t + cfg.expSeq s.eIdx, EKind.arrival⟩]) ++
              [⟨0, e.t + cfg.expSeq (s.eIdx + 1), EKind.departure⟩]) ∧
        (s.num_in_queue.1 + 1 ≠ 1 →
          (stepBody cfg s).enter_service_times.1 = s.enter_service_times.1) ∧
        (stepBody cfg s).enter_service_times.2 = s.enter_service_times.2 ∧
        (stepBody cfg s).departure_times.2 = s.departure_times.2 ∧
        (stepBody cfg s).num_in_queue.2 = s.num_in_queue.2)) := by
  rw [stepBody_eq_dispatch hpop]
  obtain ⟨cls, te, kind⟩ := e
  dsimp only at hk ⊢
  subst hk
  constructor
  · intro hcls
    subst hcls
    rw [dispatch_arrReg]
    unfold arrRegBranch
    dsimp only
    constructor
    · intro hcond
      rw [if_pos hcond]
      exact ⟨rfl, rfl⟩
    · intro hncond
      rw [if_neg hncond]
      exact ⟨rfl, rfl⟩
  · intro hcls
    subst hcls
    rw [dispatch_arrFp]
    unfold arrFpBranch
    dsimp only
    refine ⟨?_, ?_, ?_, ?_, ?_⟩
    · intro hcond
      rw [if_pos hcond]
      exact ⟨rfl, rfl⟩
    · intro hncond
      rw [if_neg hncond]
    · split_ifs <;> rfl
    · split_ifs <;> rfl
    · split_ifs <;> rfl

/-- C5, witness: at the state `mixedS2` the next event is the Regular
arrival at time 2, both counters are 0, so it enters service at its
arrival instant and a Regular departure is scheduled. -/
theorem c5_service_start_rules_witness :
    (stepBody cfgMixed mixedS2).enter_service_times.2 =
      mixedS2.enter_service_times.2 ++ [2] ∧
    (stepBody cfgMixed mixedS2).fel =
      ([] ++ [⟨classDraw cfgMixed mixedS2.uIdx, 2 + cfgMixed.expSeq mixedS2.eIdx,
        EKind.arrival⟩]) ++
        [⟨1, 2 + cfgMixed.expSeq (mixedS2.eIdx + 1), EKind.departure⟩] :=
  ((c5_service_start_rules cfgMixed mixedS2 ⟨1, 2, EKind.arrival⟩ [] mixed_pop2 rfl).1
    rfl).1 (by decide)

theorem invalid_pop0 :
    popMin (initState cfgInvalid).fel = some (⟨0, 1, EKind.arrival⟩, []) := by
  norm_num [initState, popMin, classDraw, is_fp, cfgInvalid]

/-- C6, counterexample: the invalid configuration `fp_frac = 2` (outside
[0, 1]) is accepted without any error: the engine seeds and processes
the first arrival exactly as in a valid run — after one iteration the
clock is 1 and a fastpass arrival has been logged — instead of failing
fast; the source contains no validation of `arrival_rate` or `fp_frac`
at all. -/
theorem c6_counterexample :
    (iterSim cfgInvalid 50000 1).arrival_times.1 = [1] ∧
    (iterSim cfgInvalid 50000 1).time = 1 ∧
    (iterSim cfgInvalid 50000 1).num_in_queue.1 = 1 := by
  rw [iterSim_succ, iterSim_zero,
    stepIf_eq_dispatch (show loopCond 50000 (initState cfgInvalid) by decide) invalid_pop0,
    dispatch_arrFp]
  norm_num [arrFpBranch, initState, cfgInvalid, classDraw, is_fp]

theorem stepBody_congr (cfg cfg' : Cfg) (s : SimState)
    (he : ∀ n, cfg.expSeq n = cfg'.expSeq n)
    (hc : ∀ n, classDraw cfg n = classDraw cfg' n) :
    stepBody cfg s = stepBody cfg' s := by
  unfold stepBody
  cases popMin s.fel with
  | none => rfl
  | some p =>
    obtain ⟨e, r⟩ := p
    unfold dispatch arrFpBranch depFpBranch arrRegBranch depRegBranch
    simp only [he, hc]

theorem stepIf_congr (cfg cfg' : Cfg) (cap : ℕ) (s : SimState)
    (he : ∀ n, cfg.expSeq n = cfg'.expSeq n)
    (hc : ∀ n, classDraw cfg n = classDraw cfg' n) :
    stepIf cfg cap s = stepIf cfg' cap s := by
  unfold stepIf
  by_cases h : loopCond cap s
  · rw [if_pos h, if_pos h, stepBody_congr cfg cfg' s he hc]
  · rw [if_neg h, if_neg h]

theorem initState_congr (cfg cfg' : Cfg)
    (he : ∀ n, cfg.expSeq n = cfg'.expSeq n)
    (hc : ∀ n, classDraw cfg n = classDraw cfg' n) :
    initState cfg = initState cfg' := by
  unfold initState
  rw [hc 0, he 0]

theorem iterSim_congr (cfg cfg' : Cfg) (cap k : ℕ)
    (he : ∀ n, cfg.expSeq n = cfg'.expSeq n)
    (hc : ∀ n, classDraw cfg n = classDraw cfg' n) :
    iterSim cfg cap k = iterSim cfg' cap k := by
  induction k with
  | zero => rw [iterSim_zero, iterSim_zero, initState_congr cfg cfg' he hc]
  | succ n ih => rw [iterSim_succ, iterSim_succ, ih, stepIf_congr cfg cfg' cap _ he hc]

/-- C6, amended: the engine performs no configuration validation.  A
`fp_frac` of 1 or more (with the uniform draws in [0, 1), as `random()`
produces) drives exactly the same run as the boundary value 1.0 — every
arrival is a fastpass customer — and the only failure the invalid value
ever causes is the late, unguarded statistics fault (`none`, a
`ZeroDivisionError` over the empty Regular log), not a fast, descriptive
configuration error.  `arrival_rate` is never inspected by the engine at
all: it enters only through the `rand_exp` outcome stream. -/
theorem c6_amended_no_validation (cfg : Cfg) (cap k : ℕ)
    (hfrac : 1 ≤ cfg.fp_frac) (hu : ∀ n, 0 ≤ cfg.uSeq n ∧ cfg.uSeq n < 1) :
    iterSim cfg cap k = iterSim { cfg with fp_frac := 1 } cap k ∧
    stats cfg.fp_frac (iterSim cfg cap k) = none := by
  have hdraw : ∀ n, classDraw cfg n = 0 := fun n => by
    unfold classDraw is_fp
    exact if_pos (lt_of_lt_of_le (hu n).2 hfrac)
  constructor
  · apply iterSim_congr
    · intro n
      rfl
    · intro n
      have hone : classDraw { cfg with fp_frac := 1 } n = 0 := by
        unfold classDraw is_fp
        exact if_pos (hu n).2
      rw [hdraw n, hone]
  · obtain ⟨h1, _, h3⟩ := regLogs_empty cfg cap k hdraw
    exact stats_none_of_reg_empty _ h1 h3

/-- C6, amended, witness: the invalid `cfgInvalid` (`fp_frac = 2`) run
coincides with the same run at `fp_frac = 1` after three iterations, and
its statistics fault rather than raising a configuration error. -/
theorem c6_amended_no_validation_witness :
    iterSim cfgInvalid 50000 3 = iterSim { cfgInvalid with fp_frac := 1 } 50000 3 ∧
    stats cfgInvalid.fp_frac (iterSim cfgInvalid 50000 3) = none :=
  c6_amended_no_validation cfgInvalid 50000 3 (by norm_num [cfgInvalid])
    (fun n => by norm_num [cfgInvalid])

theorem zipWith_sub_nonneg (dep : List ℚ) : ∀ arr : List ℚ,
    (∀ i, i < dep.length → arr.getD i 0 ≤ dep.getD i 0) →
    ∀ x ∈ List.zipWith (fun d a => d - a) dep arr, 0 ≤ x := by
  induction dep with
  | nil =>
    intro arr h x hx
    simp at hx
  | cons d ds ih =>
    intro arr h x hx
    cases arr with
    | nil => simp at hx
    | cons a as =>
      simp only [List.zipWith_cons_cons, List.mem_cons] at hx
      rcases hx with hx | hx
      · subst hx
        have h0 := h 0 (by simp)
        simp only [List.getD_cons_zero] at h0
        linarith
      · refine ih as ?_ x hx
        intro i hi
        have := h (i + 1) (by simp only [List.length_cons]; omega)
        simpa using this

/-- C9: in every run with non-negative exponential draws, at every
iteration boundary (hence at termination) and for each class, the i-th
logged departure time is no earlier than the i-th logged arrival time,
so every residence time `departure_times[c][i] − arrival_times[c][i]`
computed by the statistics is non-negative. -/
theorem c9_residence_times_nonneg (cfg : Cfg) (cap k : ℕ)
    (hexp : ∀ n, 0 ≤ cfg.expSeq n) :
    (∀ i, i < (iterSim cfg cap k).departure_times.1.length →
      (iterSim cfg cap k).arrival_times.1.getD i 0 ≤
        (iterSim cfg cap k).departure_times.1.getD i 0) ∧
    (∀ i, i < (iterSim cfg cap k).departure_times.2.length →
      (iterSim cfg cap k).arrival_times.2.getD i 0 ≤
        (iterSim cfg cap k).departure_times.2.getD i 0) ∧
    (∀ rs, residenceTimes (iterSim cfg cap k).departure_times.1
        (iterSim cfg cap k).arrival_times.1 = some rs → ∀ x ∈ rs, 0 ≤ x) ∧
    (∀ rs, residenceTimes (iterSim cfg cap k).departure_times.2
        (iterSim cfg cap k).arrival_times.2 = some rs → ∀ x ∈ rs, 0 ≤ x) := by
  obtain ⟨⟨hK0, hM0⟩, ⟨hK1, hM1⟩⟩ := inv2_iterSim cfg cap k hexp
  refine ⟨hM0, hM1, ?_, ?_⟩
  · intro rs hrs x hx
    unfold residenceTimes at hrs
    split_ifs at hrs with hlen
    · injection hrs with h
      subst h
      exact zipWith_sub_nonneg _ _ hM0 x hx
  · intro rs hrs x hx
    unfold residenceTimes at hrs
    split_ifs at hrs with hlen
    · injection hrs with h
      subst h
      exact zipWith_sub_nonneg _ _ hM1 x hx

/-- C9, witness: in the `cfgMixed` run after two iterations the first
fastpass customer arrived at time 1 and departed at time 11, and the
matched log entries are ordered. -/
theorem c9_residence_times_nonneg_witness :
    (iterSim cfgMixed 50000 2).arrival_times.1.getD 0 0 ≤
      (iterSim cfgMixed 50000 2).departure_times.1.getD 0 0 :=
  (c9_residence_times_nonneg cfgMixed 50000 2
    (fun n => by dsimp [cfgMixed]; split_ifs <;> norm_num)).1 0
    (by rw [mixed_iter2]; decide)

/-- C1, counterexample: in the run driven by `cfgMixed` with the
source's cap of 50000, the clock adopted from the popped events is 11
after two iterations (the fastpass departure pops first because the heap
key orders class before time) and 2 after three iterations (the regular
arrival scheduled at time 2 pops only afterwards), so the sequence of
scheduled times assigned to the simulation clock is not non-decreasing. -/
theorem c1_counterexample :
    (iterSim cfgMixed 50000 2).time = 11 ∧ (iterSim cfgMixed 50000 3).time = 2 ∧
    ¬ (iterSim cfgMixed 50000 2).time ≤ (iterSim cfgMixed 50000 3).time := by
  rw [mixed_iter2, mixed_iter3]
  norm_num [mixedS2, mixedS3]

/-- C3: the event popped by the engine from the future-event queue is a
minimum under the composite key `(class, scheduled_time)` ascending, the
key stored in the event at creation: every queued event has a strictly
larger class, or the same class and a scheduled time no earlier — so for
equal scheduled time a Priority-class (0) event pops before a
Regular-class (1) event, and for equal class the earlier scheduled time
pops first.  Popping removes exactly the popped event (the queue is a
permutation of the popped event and the remainder). -/
theorem c3_pop_minimum_composite_key {l : List Event} {e : Event} {r : List Event}
    (h : popMin l = some (e, r)) :
    (∀ x ∈ l, e.cls < x.cls ∨ (e.cls = x.cls ∧ e.t ≤ x.t)) ∧ l.Perm (e :: r) :=
  ⟨fun x hx => leB_cls_time (popMin_min h x hx), popMin_perm h⟩

/-- C3, witness: the composite-key minimality applied to the concrete
two-event queue of `mixedS1`, where the class-0 departure at time 11
pops before the class-1 arrival at time 2. -/
theorem c3_pop_minimum_composite_key_witness :
    (∀ x ∈ mixedS1.fel,
      (0 : ℕ) < x.cls ∨ ((0 : ℕ) = x.cls ∧ (11 : ℚ) ≤ x.t)) ∧
    mixedS1.fel.Perm (⟨0, 11, EKind.departure⟩ :: [⟨1, 2, EKind.arrival⟩]) :=
  c3_pop_minimum_composite_key mixed_pop1

end FastpassSim
